import Mathlib

/-
Verification development for the mochatools per-site variant annotator
(mochatools.c) and the beta-binomial log-gamma cache (beta_binom.c).

Embedding conventions:
* machine doubles/floats are modelled as exact rationals (ℚ);
* a float slot that the code tests with isnan() is modelled as Option ℚ,
  with none standing for NaN;
* results that the code computes through irrational library calls
  (log, sqrt, erfc, the incomplete beta) are kept symbolic: a dedicated
  constructor records the branch taken and its rational arguments;
* machine integers are ℤ/ℕ (all quantities stay far below 2^31, so no
  wrap-around occurs on the paths modelled here);
* the mutable caches become explicit state records threaded through the
  functions that the source mutates.
-/

set_option maxHeartbeats 1000000

/-! ## ContextScanner (mochatools.c, process, lines 507-527)

For each record the scanner fetches the FASTA window, upper-cases it in
place (`if (fa[i] > 96) fa[i] = fa[i] - 32;`), counts A/T bases, C/G bases
and CG dinucleotides (`cpg_cnt += 2` per occurrence), and emits
`GC = cg_cnt / (at_cnt + cg_cnt)` and `CpG = cpg_cnt / fa_len`.
A window with no A/C/G/T base makes the GC division 0.0f/0.0f = NaN,
modelled as `none`; an empty window likewise for CpG. -/

/-- `if (fa[i] > 96) fa[i] = (char)(fa[i] - 32);` -/
def upcase (c : Char) : Char :=
  if 96 < c.toNat then Char.ofNat (c.toNat - 32) else c

/-- `if (fa[i] == 'A' || fa[i] == 'T') at_cnt++;` -/
def at_cnt (s : List Char) : ℕ :=
  s.countP (fun c => decide (c = 'A' ∨ c = 'T'))

/-- `if (fa[i] == 'C' || fa[i] == 'G') cg_cnt++;` -/
def cg_cnt (s : List Char) : ℕ :=
  s.countP (fun c => decide (c = 'C' ∨ c = 'G'))

/-- `if (i > 0) if (fa[i - 1] == 'C' && fa[i] == 'G') cpg_cnt += 2;` -/
def cpg_cnt : List Char → ℕ
  | c :: g :: rest => (if c = 'C' ∧ g = 'G' then 2 else 0) + cpg_cnt (g :: rest)
  | _ => 0

/-- `ratio = (float)(cg_cnt) / (float)(at_cnt + cg_cnt);` — NaN (none) when
the window holds no A/C/G/T base. -/
def gcRatio (fa : List Char) : Option ℚ :=
  let s := fa.map upcase
  if at_cnt s + cg_cnt s = 0 then none
  else some ((cg_cnt s : ℚ) / ((at_cnt s : ℚ) + (cg_cnt s : ℚ)))

/-- `ratio = (float)cpg_cnt / (float)(fa_len);` — NaN (none) on an empty
window. -/
def cpgRatio (fa : List Char) : Option ℚ :=
  if fa.length = 0 then none
  else some ((cpg_cnt (fa.map upcase) : ℚ) / (fa.length : ℚ))

theorem cpg_cnt_cons_le (s : List Char) :
    ∀ prev, cpg_cnt (prev :: s) ≤ s.length + (if prev = 'C' then 1 else 0) := by
  induction s with
  | nil => intro prev; simp [cpg_cnt]
  | cons g rest ih =>
    intro prev
    have h := ih g
    have hb : cpg_cnt (g :: rest) ≤ rest.length + 1 :=
      le_trans h (by split <;> omega)
    by_cases hm : prev = 'C' ∧ g = 'G'
    · obtain ⟨hp, hg⟩ := hm
      subst hp
      subst hg
      have hgc : ¬ ('G' = 'C') := by decide
      have h0 : cpg_cnt ('G' :: rest) ≤ rest.length := by simpa [hgc] using h
      simp only [cpg_cnt, List.length_cons]
      norm_num
      omega
    · simp only [cpg_cnt, if_neg hm, List.length_cons]
      split <;> omega

theorem cpg_cnt_le (s : List Char) : cpg_cnt s ≤ s.length := by
  cases s with
  | nil => simp [cpg_cnt]
  | cons c t =>
    have h := cpg_cnt_cons_le t c
    have : cpg_cnt (c :: t) ≤ t.length + 1 := le_trans h (by split <;> omega)
    simpa [List.length_cons] using this

/-- C9, counterexample: on the window "NN" (no A/C/G/T base) the code
computes GC = 0.0f/0.0f = NaN, so the emitted GC value does not satisfy
0 ≤ GC ≤ 1. -/
theorem gcRatio_counterexample :
    ¬ ∃ q : ℚ, gcRatio ['N', 'N'] = some q ∧ 0 ≤ q ∧ q ≤ 1 := by
  intro ⟨q, hq, _⟩
  simp [gcRatio, at_cnt, cg_cnt, upcase] at hq

/-- C9 (amended): for every fetched window that contains at least one
A/C/G/T base after upper-casing, the emitted GC value satisfies
0 ≤ GC ≤ 1, and for every nonempty window (all-N windows included) the
emitted CpG value satisfies 0 ≤ CpG ≤ 1. -/
theorem gc_cpg_bounds (fa : List Char) :
    (at_cnt (fa.map upcase) + cg_cnt (fa.map upcase) ≠ 0 →
      ∃ q : ℚ, gcRatio fa = some q ∧ 0 ≤ q ∧ q ≤ 1) ∧
    (fa ≠ [] → ∃ q : ℚ, cpgRatio fa = some q ∧ 0 ≤ q ∧ q ≤ 1) := by
  constructor
  · intro hgc
    have hpos : (0:ℚ) < (at_cnt (fa.map upcase) : ℚ) + (cg_cnt (fa.map upcase) : ℚ) := by
      have := Nat.pos_of_ne_zero hgc
      exact_mod_cast this
    refine ⟨(cg_cnt (fa.map upcase) : ℚ) /
        ((at_cnt (fa.map upcase) : ℚ) + (cg_cnt (fa.map upcase) : ℚ)), ?_, ?_, ?_⟩
    · simp [gcRatio, hgc]
    · exact div_nonneg (by positivity) hpos.le
    · rw [div_le_one hpos]
      have : (0:ℚ) ≤ (at_cnt (fa.map upcase) : ℚ) := by positivity
      linarith
  · intro hne
    have hlen : fa.length ≠ 0 := by simpa using hne
    have hlpos : (0:ℚ) < (fa.length : ℚ) := by
      have := Nat.pos_of_ne_zero hlen
      exact_mod_cast this
    refine ⟨(cpg_cnt (fa.map upcase) : ℚ) / (fa.length : ℚ), ?_, ?_, ?_⟩
    · simp [cpgRatio, hlen]
    · exact div_nonneg (by positivity) hlpos.le
    · rw [div_le_one hlpos]
      have h := cpg_cnt_le (fa.map upcase)
      rw [List.length_map] at h
      exact_mod_cast h

/-- C9 witness: the spec's scenario-4 window "ACGTACGTACGT" has
GC = 6/12 = 1/2 and CpG = 6/12 = 1/2; both hypotheses hold and both
bounds follow. -/
theorem gc_cpg_bounds_witness :
    (∃ q : ℚ,
        gcRatio ['A','C','G','T','A','C','G','T','A','C','G','T'] = some q ∧
        0 ≤ q ∧ q ≤ 1) ∧
    (∃ q : ℚ,
        cpgRatio ['A','C','G','T','A','C','G','T','A','C','G','T'] = some q ∧
        0 ≤ q ∧ q ≤ 1) :=
  ⟨(gc_cpg_bounds ['A','C','G','T','A','C','G','T','A','C','G','T']).1 (by decide),
   (gc_cpg_bounds ['A','C','G','T','A','C','G','T','A','C','G','T']).2 (by decide)⟩

/-! ## BetaBinomCache (beta_binom.c, beta_binom_init / beta_binom_update)

The three growable arrays hold real-valued log-gamma ratios (`log`, outside
ℚ), so the state records what the cache-monotonicity claim inspects: the
last parameters `(p, rho)` (NaN after init, modelled as `none`), the
high-water marks `n1`, `n2`, and the allocated capacities of the three
arrays (`hts_expand` only ever grows them; we record `max old (wanted)`).
`beta_binom_update` additionally returns the ordered list of indices it
writes: `w1` for the `log_gamma_alpha`/`log_gamma_beta` pair (one `while`
loop writes both at the same indices, in both the `rho == 0` and the
`rho != 0` branch) and `w2` for `log_gamma_alpha_beta`. -/

structure beta_binom_t where
  p : Option ℚ
  rho : Option ℚ
  n1 : ℕ
  n2 : ℕ
  m_log_gamma_alpha : ℕ
  m_log_gamma_beta : ℕ
  m_log_gamma_alpha_beta : ℕ
deriving Repr, DecidableEq

/-- `beta_binom_init`: capacity 1 in each array (index 0 zero-filled by
`hts_expand0`), `p = rho = NAN`. -/
def beta_binom_init : beta_binom_t :=
  ⟨none, none, 0, 0, 1, 1, 1⟩

/-- `beta_binom_update(self, p, rho, n1, n2)` (beta_binom.c lines 59-114).
`self->p != p` is an IEEE comparison, so a stored NaN (`none`) differs from
every incoming `p`; the reset then zeroes the high-water marks only.  The
two `while` loops advance `self->n1` to `n1` writing indices
`self->n1+1 .. n1` (both log-gamma arrays) and `self->n2` to `n2` writing
`self->n2+1 .. n2`; when the target is not above the mark no index is
written. -/
def beta_binom_update (s : beta_binom_t) (p rho : ℚ) (N1 N2 : ℕ) :
    beta_binom_t × (List ℕ × List ℕ) :=
  let s0 := if s.p ≠ some p ∨ s.rho ≠ some rho then
      { s with p := some p, rho := some rho, n1 := 0, n2 := 0 }
    else s
  let s1 := { s0 with
      m_log_gamma_alpha := max s0.m_log_gamma_alpha (N1 + 1),
      m_log_gamma_beta := max s0.m_log_gamma_beta (N1 + 1),
      m_log_gamma_alpha_beta := max s0.m_log_gamma_alpha_beta (N2 + 1) }
  let w1 := List.range' (s1.n1 + 1) (N1 - s1.n1)
  let w2 := List.range' (s1.n2 + 1) (N2 - s1.n2)
  ({ s1 with n1 := max s1.n1 N1, n2 := max s1.n2 N2 }, (w1, w2))

/-- C8: calling `beta_binom_update` at the stored `(p, rho)` writes only
indices strictly above the current high-water marks (never a filled one,
each at most once) and advances the marks to `max`, so that repeated calls
with non-decreasing targets have pairwise-disjoint write sets; and a change
of `(p, rho)` resets the marks to 0 — the fill restarts at index 1 and runs
to the new targets — while the allocated storage is preserved (capacities
never shrink). -/
theorem beta_binom_update_cache (s : beta_binom_t) (p rho : ℚ) (N1 N2 : ℕ) :
    ((s.p = some p ∧ s.rho = some rho) →
      ((beta_binom_update s p rho N1 N2).1.n1 = max s.n1 N1 ∧
       (beta_binom_update s p rho N1 N2).1.n2 = max s.n2 N2) ∧
      (∀ i ∈ (beta_binom_update s p rho N1 N2).2.1, s.n1 < i ∧ i ≤ N1) ∧
      (∀ i ∈ (beta_binom_update s p rho N1 N2).2.2, s.n2 < i ∧ i ≤ N2) ∧
      (beta_binom_update s p rho N1 N2).2.1.Nodup ∧
      (beta_binom_update s p rho N1 N2).2.2.Nodup) ∧
    ((s.p ≠ some p ∨ s.rho ≠ some rho) →
      (beta_binom_update s p rho N1 N2).2.1 = List.range' 1 N1 ∧
      (beta_binom_update s p rho N1 N2).2.2 = List.range' 1 N2 ∧
      (beta_binom_update s p rho N1 N2).1.n1 = N1 ∧
      (beta_binom_update s p rho N1 N2).1.n2 = N2) ∧
    (s.m_log_gamma_alpha ≤ (beta_binom_update s p rho N1 N2).1.m_log_gamma_alpha ∧
     s.m_log_gamma_beta ≤ (beta_binom_update s p rho N1 N2).1.m_log_gamma_beta ∧
     s.m_log_gamma_alpha_beta ≤ (beta_binom_update s p rho N1 N2).1.m_log_gamma_alpha_beta) := by
  refine ⟨?_, ?_, ?_⟩
  · rintro ⟨hp, hrho⟩
    have hcond : ¬ (s.p ≠ some p ∨ s.rho ≠ some rho) := by simp [hp, hrho]
    simp only [beta_binom_update, if_neg hcond]
    refine ⟨⟨by trivial, by trivial⟩, ?_, ?_, List.nodup_range' _ _, List.nodup_range' _ _⟩
    · intro i hi
      rw [List.mem_range'_1] at hi
      omega
    · intro i hi
      rw [List.mem_range'_1] at hi
      omega
  · intro hcond
    simp only [beta_binom_update, if_pos hcond]
    refine ⟨by simp, by simp, by simp, by simp⟩
  · by_cases hcond : s.p ≠ some p ∨ s.rho ≠ some rho
    · simp only [beta_binom_update, if_pos hcond]
      exact ⟨le_max_left _ _, le_max_left _ _, le_max_left _ _⟩
    · simp only [beta_binom_update, if_neg hcond]
      exact ⟨le_max_left _ _, le_max_left _ _, le_max_left _ _⟩

/-- C8 witness: applying the theorem at concrete inputs discharging each
hypothesis.  A cache already at `(p, rho) = (1/2, 1/10)` with marks
`n1 = 3, n2 = 2` is updated monotonically to targets 5, 4 (no refilled
index, mark advances to `max 3 5`); and the freshly initialised cache
(stored NaN) sees a parameter change, so the fill restarts at index 1. -/
theorem beta_binom_update_cache_witness :
    (((⟨some (1/2), some (1/10), 3, 2, 4, 4, 3⟩ : beta_binom_t).p = some (1/2 : ℚ) ∧
      (⟨some (1/2), some (1/10), 3, 2, 4, 4, 3⟩ : beta_binom_t).rho = some (1/10 : ℚ)) ∧
     (beta_binom_update ⟨some (1/2), some (1/10), 3, 2, 4, 4, 3⟩ (1/2) (1/10) 5 4).1.n1 =
       max (⟨some (1/2), some (1/10), 3, 2, 4, 4, 3⟩ : beta_binom_t).n1 5 ∧
     (beta_binom_update ⟨some (1/2), some (1/10), 3, 2, 4, 4, 3⟩ (1/2) (1/10) 5 4).2.1.Nodup) ∧
    ((beta_binom_init.p ≠ some (1/2 : ℚ) ∨ beta_binom_init.rho ≠ some (1/10 : ℚ)) ∧
     (beta_binom_update beta_binom_init (1/2) (1/10) 3 2).2.1 = List.range' 1 3) := by
  have hsame : (⟨some (1/2), some (1/10), 3, 2, 4, 4, 3⟩ : beta_binom_t).p = some (1/2 : ℚ) ∧
      (⟨some (1/2), some (1/10), 3, 2, 4, 4, 3⟩ : beta_binom_t).rho = some (1/10 : ℚ) :=
    ⟨rfl, rfl⟩
  have hdiff : beta_binom_init.p ≠ some (1/2 : ℚ) ∨ beta_binom_init.rho ≠ some (1/10 : ℚ) := by
    left
    simp [beta_binom_init]
  exact ⟨⟨hsame,
      (((beta_binom_update_cache ⟨some (1/2), some (1/10), 3, 2, 4, 4, 3⟩
          (1/2) (1/10) 5 4).1 hsame).1).1,
      ((beta_binom_update_cache ⟨some (1/2), some (1/10), 3, 2, 4, 4, 3⟩
          (1/2) (1/10) 5 4).1 hsame).2.2.2.1⟩,
    ⟨hdiff,
      ((beta_binom_update_cache beta_binom_init (1/2) (1/10) 3 2).2.1 hdiff).1⟩⟩

/-! ## binom_exact (mochatools.c, lines 337-381)

`binom_exact(k, n)` returns `2*pbinom(k, n, 1/2)` using two flat
triangular arrays `dbinom`/`pbinom` cached across calls.  Row `i` of the
triangle starts at flat index `1 + (i >> 1) * ((i + 1) >> 1)` (row 0 is
the single cell at index 0) and holds `(i + 1) >> 1` cells (one cell for
row 0); the fill computes cell `(i, 0)` from `(i-1, 0)` by
`dbinom[curr] = dbinom[prev] * 0.5` and cell `(i, j)` from `(i-1, j-1)` by
`dbinom[curr] = (double)i/(double)j * dbinom[prev] * 0.5`, with `pbinom`
the running row prefix sum.  Every cell is written exactly once, from
cells of the previous row, so in a reachable state the array value at
`(i, j)` is the recurrence value `dbinomQ i j` below; the state after
growing to `n_size` rows is therefore the full recurrence table
`mkBinomState n_size`.  Doubles are modelled as exact rationals. -/

/-- The value the fill loop stores in `dbinom` cell `(i, j)`:
`dbinom[0] = 1.0`, `dbinom[(i,0)] = dbinom[(i-1,0)] * 0.5`,
`dbinom[(i,j)] = (double)i/(double)j * dbinom[(i-1,j-1)] * 0.5`.
(The `0, j+1` case is outside the stored triangle; it continues the same
closed form.) -/
def dbinomQ : ℕ → ℕ → ℚ
  | 0, 0 => 1
  | i + 1, 0 => dbinomQ i 0 * (1 / 2)
  | 0, _ + 1 => 0
  | i + 1, j + 1 => ((i : ℚ) + 1) / ((j : ℚ) + 1) * dbinomQ i j * (1 / 2)

/-- The value stored in `pbinom` cell `(i, j)`: the running prefix sum
`pbinom[curr] = pbinom[curr - 1] + dbinom[curr]` along row `i`, starting
from `pbinom[(i,0)] = dbinom[(i,0)]`. -/
def pbinomQ (i : ℕ) : ℕ → ℚ
  | 0 => dbinomQ i 0
  | j + 1 => pbinomQ i j + dbinomQ i (j + 1)

/-- Number of cells of triangle row `i`: one for row 0, `(i + 1) >> 1`
otherwise. -/
def rowLen : ℕ → ℕ
  | 0 => 1
  | i + 1 => (i + 2) / 2

/-- Flat index of the first cell of row `i`:
`i - 1 ? 1 + ((i - 1) >> 1) * (i >> 1) : 0` for the previous row and
`1 + (i >> 1) * ((i + 1) >> 1)` for the current one in the source. -/
def rowStart (i : ℕ) : ℕ := if i = 0 then 0 else 1 + i / 2 * ((i + 1) / 2)

/-- The flat triangular array with rows `0 .. m-1`, each row `i` holding
`g i 0 .. g i (rowLen i - 1)`. -/
def flatTab (g : ℕ → ℕ → ℚ) (m : ℕ) : List ℚ :=
  (List.range m).flatMap (fun i => (List.range (rowLen i)).map (g i))

/-- The cache state of `binom_exact`: the static `dbinom`, `pbinom`
pointers and `n_size` (rows filled).  `m_dbinom`/`m_pbinom` only mirror
capacity growth and are omitted. -/
structure BinomState where
  dbinom : List ℚ
  pbinom : List ℚ
  n_size : ℕ
deriving Repr, DecidableEq

/-- The reachable cache state with `m` rows filled (`m = 0` right after
start-up: both arrays NULL). -/
def mkBinomState (m : ℕ) : BinomState := ⟨flatTab dbinomQ m, flatTab pbinomQ m, m⟩

/-- Result of `binom_exact`: `NAN`, the `binom_dist(n, 0.5, k)` fallback
(external bcftools kernel, taken only for `n > 1000`), or a table value. -/
inductive BinomRes
  | nan
  | ext (n k : ℤ)
  | val (q : ℚ)
deriving Repr, DecidableEq

/-- `binom_exact(int k, int n)` (mochatools.c lines 341-381), with the
static cache made explicit.  Branches in source order:
the `n < 0 && k < 0` sentinel frees both arrays (the static `n_size` is
not reset); `n < 0 || k < 0 || k > n` returns NaN; `n > 1000` defers to
`binom_dist`; `k == n >> 1` returns 1.0; otherwise `k` is folded by
`if (k << 1 > n) k = n - k`, the table is grown when `n >= n_size`
(`hts_expand` keeps existing entries; the loop appends rows `n_size..n`,
which in a reachable state yields exactly `mkBinomState (n+1)`), and
`2.0 * pbinom[1 + (n >> 1) * ((n + 1) >> 1) + k]` is returned. -/
def binom_exact (k n : ℤ) (s : BinomState) : BinomRes × BinomState :=
  if n < 0 ∧ k < 0 then (.nan, ⟨[], [], s.n_size⟩)
  else if n < 0 ∨ k < 0 ∨ n < k then (.nan, s)
  else if 1000 < n then (.ext n k, s)
  else
    let nn := n.toNat
    let kk := k.toNat
    if kk = nn / 2 then (.val 1, s)
    else
      let kk' := if nn < 2 * kk then nn - kk else kk
      let s' := if s.n_size ≤ nn then mkBinomState (nn + 1) else s
      (.val (2 * s'.pbinom.getD (1 + nn / 2 * ((nn + 1) / 2) + kk') 0), s')

theorem dbinomQ_eq (i : ℕ) : ∀ j : ℕ, dbinomQ i j = (i.choose j : ℚ) / 2 ^ i := by
  induction i with
  | zero =>
    intro j
    cases j with
    | zero => simp [dbinomQ]
    | succ j => simp [dbinomQ]
  | succ i ih =>
    intro j
    cases j with
    | zero =>
      rw [show dbinomQ (i + 1) 0 = dbinomQ i 0 * (1 / 2) from rfl, ih 0]
      simp only [Nat.choose_zero_right, Nat.cast_one, pow_succ]
      field_simp
    | succ j =>
      rw [show dbinomQ (i + 1) (j + 1) =
            ((i : ℚ) + 1) / ((j : ℚ) + 1) * dbinomQ i j * (1 / 2) from rfl, ih j]
      have h := Nat.succ_mul_choose_eq i j
      have hq : ((i : ℚ) + 1) * (i.choose j : ℚ) =
          ((i + 1).choose (j + 1) : ℚ) * ((j : ℚ) + 1) := by
        exact_mod_cast congrArg (fun x : ℕ => (x : ℚ)) h
      have hj : ((j : ℚ) + 1) ≠ 0 := by positivity
      have h2 : (2 : ℚ) ^ i ≠ 0 := by positivity
      field_simp
      linear_combination (2 : ℚ) ^ i * 2 * hq

theorem pbinomQ_eq (n : ℕ) : ∀ j : ℕ,
    pbinomQ n j = (∑ l ∈ Finset.range (j + 1), (n.choose l : ℚ)) / 2 ^ n := by
  intro j
  induction j with
  | zero => simp [pbinomQ, dbinomQ_eq]
  | succ j ih =>
    rw [show pbinomQ n (j + 1) = pbinomQ n j + dbinomQ n (j + 1) from rfl, ih,
      dbinomQ_eq, Finset.sum_range_succ (fun l => ((n.choose l : ℕ) : ℚ)) (j + 1), add_div]

theorem rowStart_succ (i : ℕ) : rowStart (i + 1) = rowStart i + rowLen i := by
  cases i with
  | zero => simp [rowStart, rowLen]
  | succ i =>
    simp only [rowStart, rowLen, if_neg (Nat.succ_ne_zero i),
      if_neg (Nat.succ_ne_zero (i + 1))]
    have h3 : (i + 1 + 2) / 2 = (i + 1) / 2 + 1 := Nat.add_div_right (i + 1) (by norm_num)
    have h2 : (i + 1 + 1) / 2 = (i + 2) / 2 := by omega
    rw [h3, h2]
    ring

theorem rowStart_le (a b : ℕ) (h : a ≤ b) : rowStart a ≤ rowStart b := by
  induction b with
  | zero => simp [Nat.le_zero.mp h]
  | succ b ih =>
    rcases Nat.lt_or_ge a (b + 1) with hlt | hge
    · exact le_trans (ih (by omega)) (by rw [rowStart_succ]; omega)
    · have : a = b + 1 := by omega
      subst this
      exact le_refl _

theorem flatTab_length (g : ℕ → ℕ → ℚ) (m : ℕ) : (flatTab g m).length = rowStart m := by
  induction m with
  | zero => simp [flatTab, rowStart]
  | succ m ih =>
    rw [flatTab, List.range_succ, List.flatMap_append, List.length_append]
    rw [flatTab] at ih
    simp only [ih, List.flatMap_cons, List.flatMap_nil, List.append_nil,
      List.length_map, List.length_range, rowStart_succ]

theorem flatTab_getD (g : ℕ → ℕ → ℚ) (n m k : ℕ) (hn : n < m) (hk : k < rowLen n) :
    (flatTab g m).getD (rowStart n + k) 0 = g n k := by
  obtain ⟨r, rfl⟩ : ∃ r, m = (n + 1) + r := ⟨m - (n + 1), by omega⟩
  have hsplit : flatTab g (n + 1 + r) =
      flatTab g (n + 1) ++ (List.range r).flatMap
        (fun i => (List.range (rowLen (n + 1 + i))).map (g (n + 1 + i))) := by
    rw [flatTab, List.range_add, List.flatMap_append, List.flatMap_map]
    rfl
  have hlen1 : (flatTab g (n + 1)).length = rowStart (n + 1) := flatTab_length g (n + 1)
  have hidx : rowStart n + k < (flatTab g (n + 1)).length := by
    rw [hlen1, rowStart_succ]
    omega
  rw [hsplit, List.getD_append _ _ _ _ hidx]
  have hsplit2 : flatTab g (n + 1) =
      flatTab g n ++ (List.range (rowLen n)).map (g n) := by
    rw [flatTab, List.range_succ, List.flatMap_append]
    simp [flatTab]
  have hlen0 : (flatTab g n).length = rowStart n := flatTab_length g n
  rw [hsplit2, List.getD_append_right _ _ _ _ (by omega)]
  rw [hlen0, Nat.add_sub_cancel_left]
  have hk' : k < ((List.range (rowLen n)).map (g n)).length := by
    simpa using hk
  rw [List.getD_eq_getElem _ _ hk']
  simp

theorem rowLen_eq (i : ℕ) (h : 1 ≤ i) : rowLen i = (i + 1) / 2 := by
  cases i with
  | zero => omega
  | succ i => simp only [rowLen]

/-- The mathematical value of an in-domain, small-`n` `binom_exact` call:
1.0 on the midpoint, else twice the cached lower-tail prefix sum at the
folded column `min k (n - k)`. -/
def binomValQ (k n : ℕ) : ℚ :=
  if k = n / 2 then 1 else 2 * pbinomQ n (min k (n - k))

theorem binom_exact_val (k n : ℤ) (m : ℕ) (h0 : 0 ≤ k) (h1 : k ≤ n) (h2 : n ≤ 1000) :
    (binom_exact k n (mkBinomState m)).1 = .val (binomValQ k.toNat n.toNat) ∧
    (binom_exact k n (mkBinomState m)).2 =
      (if k.toNat = n.toNat / 2 then mkBinomState m
       else if m ≤ n.toNat then mkBinomState (n.toNat + 1) else mkBinomState m) := by
  have hc1 : ¬ (n < 0 ∧ k < 0) := by omega
  have hc2 : ¬ (n < 0 ∨ k < 0 ∨ n < k) := by omega
  have hc3 : ¬ (1000 < n) := by omega
  set nn := n.toNat with hnn
  set kk := k.toNat with hkk
  have hkn : kk ≤ nn := by omega
  by_cases hmid : kk = nn / 2
  · simp only [binom_exact, if_neg hc1, if_neg hc2, if_neg hc3, if_pos hmid,
      binomValQ, if_pos hmid]
    exact ⟨by trivial, by trivial⟩
  · have hnn1 : 1 ≤ nn := by omega
    have hfold : (if nn < 2 * kk then nn - kk else kk) = min kk (nn - kk) := by
      split <;> omega
    have hrl : rowLen nn = (nn + 1) / 2 := rowLen_eq nn hnn1
    have hklt : min kk (nn - kk) < rowLen nn := by
      rw [hrl]
      omega
    have hstart : rowStart nn = 1 + nn / 2 * ((nn + 1) / 2) := by
      rw [rowStart, if_neg (by omega)]
    simp only [binom_exact, if_neg hc1, if_neg hc2, if_neg hc3, if_neg hmid,
      binomValQ, hfold]
    constructor
    · by_cases hgrow : m ≤ nn
      · have hsz : (mkBinomState m).n_size = m := rfl
        simp only [hsz, if_pos hgrow]
        have := flatTab_getD pbinomQ nn (nn + 1) (min kk (nn - kk)) (by omega) hklt
        rw [show (mkBinomState (nn + 1)).pbinom = flatTab pbinomQ (nn + 1) from rfl]
        rw [← hstart, this]
      · have hsz : (mkBinomState m).n_size = m := rfl
        simp only [hsz, if_neg hgrow]
        have := flatTab_getD pbinomQ nn m (min kk (nn - kk)) (by omega) hklt
        rw [show (mkBinomState m).pbinom = flatTab pbinomQ m from rfl]
        rw [← hstart, this]
    · by_cases hgrow : m ≤ nn
      · simp [mkBinomState, if_pos hgrow]
      · simp [mkBinomState, if_neg hgrow]

theorem sum_choose_reflect (n j : ℕ) (hj : j ≤ n) :
    ∑ l ∈ Finset.range (j + 1), n.choose l =
      ∑ l ∈ Finset.Ico (n - j) (n + 1), n.choose l := by
  induction j with
  | zero =>
    have hico : Finset.Ico n (n + 1) = {n} := by
      rw [Nat.Ico_succ_right, Finset.Icc_self]
    simp [hico, Nat.choose_self]
  | succ j ih =>
    have hj' : j ≤ n := by omega
    rw [Finset.sum_range_succ, ih hj']
    have hlt : n - (j + 1) < n + 1 := by omega
    rw [Finset.sum_eq_sum_Ico_succ_bot hlt]
    have h1 : n - (j + 1) + 1 = n - j := by omega
    have h2 : n.choose (n - (j + 1)) = n.choose (j + 1) := Nat.choose_symm hj
    rw [h1, h2]
    exact Nat.add_comm _ _

theorem sum_choose_le (n j : ℕ) (h : 2 * j < n) :
    2 * ∑ l ∈ Finset.range (j + 1), n.choose l ≤ 2 ^ n := by
  have hj : j ≤ n := by omega
  have hre := sum_choose_reflect n j hj
  have hdisj : Disjoint (Finset.range (j + 1)) (Finset.Ico (n - j) (n + 1)) := by
    rw [Finset.disjoint_left]
    intro a ha hb
    rw [Finset.mem_range] at ha
    rw [Finset.mem_Ico] at hb
    omega
  have hsub : Finset.range (j + 1) ∪ Finset.Ico (n - j) (n + 1) ⊆ Finset.range (n + 1) := by
    intro a ha
    rw [Finset.mem_union, Finset.mem_range, Finset.mem_Ico] at ha
    rw [Finset.mem_range]
    omega
  have hun : ∑ l ∈ Finset.range (j + 1), n.choose l +
      ∑ l ∈ Finset.Ico (n - j) (n + 1), n.choose l ≤ 2 ^ n := by
    rw [← Finset.sum_union hdisj]
    calc ∑ l ∈ Finset.range (j + 1) ∪ Finset.Ico (n - j) (n + 1), n.choose l
        ≤ ∑ l ∈ Finset.range (n + 1), n.choose l := Finset.sum_le_sum_of_subset hsub
      _ = 2 ^ n := Nat.sum_range_choose n
  omega

theorem pbinomQ_half (h : ℕ) : pbinomQ (2 * h + 1) h = 1 / 2 := by
  rw [pbinomQ_eq]
  have hs := Nat.sum_range_choose_halfway h
  have hq : (∑ l ∈ Finset.range (h + 1), (((2 * h + 1).choose l : ℕ) : ℚ)) = (4 : ℚ) ^ h := by
    rw [← Nat.cast_sum]
    exact_mod_cast congrArg (fun x : ℕ => (x : ℚ)) hs
  rw [hq, pow_succ,
    show ((4:ℚ)) ^ h = 2 ^ (2 * h) by rw [show (4:ℚ) = 2 ^ 2 by norm_num, ← pow_mul],
    div_mul_eq_div_div, div_self (by positivity : ((2:ℚ) ^ (2 * h)) ≠ 0)]

theorem binomValQ_symm (kk nn : ℕ) (h : kk ≤ nn) :
    binomValQ kk nn = binomValQ (nn - kk) nn := by
  by_cases h1 : kk = nn / 2
  · by_cases h2 : nn - kk = nn / 2
    · rw [binomValQ, binomValQ, if_pos h1, if_pos h2]
    · obtain ⟨hh, rfl⟩ : ∃ hh, nn = 2 * hh + 1 := ⟨nn / 2, by omega⟩
      rw [binomValQ, binomValQ, if_pos h1, if_neg h2]
      have hmin : min (2 * hh + 1 - kk) (2 * hh + 1 - (2 * hh + 1 - kk)) = hh := by omega
      rw [hmin, pbinomQ_half]
      norm_num
  · by_cases h2 : nn - kk = nn / 2
    · obtain ⟨hh, rfl⟩ : ∃ hh, nn = 2 * hh + 1 := ⟨nn / 2, by omega⟩
      rw [binomValQ, binomValQ, if_neg h1, if_pos h2]
      have hmin : min kk (2 * hh + 1 - kk) = hh := by omega
      rw [hmin, pbinomQ_half]
      norm_num
    · rw [binomValQ, binomValQ, if_neg h1, if_neg h2]
      have hmin : min (nn - kk) (nn - (nn - kk)) = min kk (nn - kk) := by omega
      rw [hmin]

theorem binomValQ_bounds (kk nn : ℕ) (h : kk ≤ nn) :
    0 < binomValQ kk nn ∧ binomValQ kk nn ≤ 1 := by
  by_cases h1 : kk = nn / 2
  · rw [binomValQ, if_pos h1]
    norm_num
  · rw [binomValQ, if_neg h1]
    have hj : 2 * min kk (nn - kk) < nn := by omega
    rw [pbinomQ_eq]
    have hpow : (0:ℚ) < 2 ^ nn := by positivity
    constructor
    · apply mul_pos two_pos
      apply div_pos _ hpow
      have h0 : (0:ℚ) < ((nn.choose 0 : ℕ) : ℚ) := by norm_num
      apply lt_of_lt_of_le h0
      apply Finset.single_le_sum (f := fun l => ((nn.choose l : ℕ) : ℚ))
      · intro i _
        positivity
      · exact Finset.mem_range.mpr (by omega)
    · rw [← mul_div_assoc, div_le_one hpow]
      have hle := sum_choose_le nn (min kk (nn - kk)) hj
      exact_mod_cast hle

/-- C2: for all `0 ≤ k ≤ n ≤ 1000` and any reachable cache state,
`binom_exact(k, n) == binom_exact(n - k, n)` (the fold `k ← min(k, n-k)`
makes both calls read the same table cell, and in the odd-`n` edge where
one side takes the `k == n >> 1` early return the other side's table cell
holds exactly 1/2), and `binom_exact(n/2, n) == 1` for even `n`. -/
theorem binom_exact_symmetry (k n : ℤ) (m m2 : ℕ)
    (h0 : 0 ≤ k) (h1 : k ≤ n) (h2 : n ≤ 1000) :
    (binom_exact k n (mkBinomState m)).1 = (binom_exact (n - k) n (mkBinomState m2)).1 ∧
    (n % 2 = 0 → (binom_exact (n / 2) n (mkBinomState m)).1 = .val 1) := by
  constructor
  · rw [(binom_exact_val k n m h0 h1 h2).1,
      (binom_exact_val (n - k) n m2 (by omega) (by omega) h2).1]
    have htn : (n - k).toNat = n.toNat - k.toNat := by omega
    rw [htn, binomValQ_symm k.toNat n.toNat (by omega)]
  · intro hev
    rw [(binom_exact_val (n / 2) n m (by omega) (by omega) h2).1]
    have ht : (n / 2).toNat = n.toNat / 2 := by omega
    rw [ht, binomValQ, if_pos rfl]

/-- C2 witness: `binom_exact(3, 10) == binom_exact(7, 10)` from the empty
cache, and `binom_exact(5, 10) == 1`. -/
theorem binom_exact_symmetry_witness :
    ((0:ℤ) ≤ 3 ∧ (3:ℤ) ≤ 10 ∧ (10:ℤ) ≤ 1000) ∧
    (binom_exact 3 10 (mkBinomState 0)).1 = (binom_exact (10 - 3) 10 (mkBinomState 0)).1 ∧
    (binom_exact (10 / 2) 10 (mkBinomState 0)).1 = .val 1 := by
  refine ⟨⟨by norm_num, by norm_num, by norm_num⟩, ?_, ?_⟩
  · exact (binom_exact_symmetry 3 10 0 0 (by norm_num) (by norm_num) (by norm_num)).1
  · exact (binom_exact_symmetry 3 10 0 0 (by norm_num) (by norm_num) (by norm_num)).2
      (by norm_num)

/-- C3: for all `0 ≤ k ≤ n ≤ 1000` and any reachable cache state,
`binom_exact(k, n)` is a finite value `q` with `0 < q ≤ 1`; in particular
`binom_exact(0, 0) = 1` (the `k == n >> 1` early return), so the test
battery's `-log10` is applied to a strictly positive argument and a
zero-count denominator gives `-log10(1) = 0.0`. -/
theorem binom_exact_pos_le_one (k n : ℤ) (m : ℕ)
    (h0 : 0 ≤ k) (h1 : k ≤ n) (h2 : n ≤ 1000) :
    (binom_exact k n (mkBinomState m)).1 = .val (binomValQ k.toNat n.toNat) ∧
    0 < binomValQ k.toNat n.toNat ∧ binomValQ k.toNat n.toNat ≤ 1 ∧
    (binom_exact 0 0 (mkBinomState m)).1 = .val 1 := by
  have hb := binomValQ_bounds k.toNat n.toNat (by omega)
  refine ⟨(binom_exact_val k n m h0 h1 h2).1, hb.1, hb.2, ?_⟩
  rw [(binom_exact_val 0 0 m (by norm_num) (by norm_num) (by norm_num)).1]
  rfl

/-- C3 witness: at `(k, n) = (3, 10)` from the empty cache the returned
value is `binomValQ 3 10 = 11/32` (the spec's scenario 2: 0.34375),
strictly positive and at most 1. -/
theorem binom_exact_pos_le_one_witness :
    ((0:ℤ) ≤ 3 ∧ (3:ℤ) ≤ 10 ∧ (10:ℤ) ≤ 1000) ∧
    (binom_exact 3 10 (mkBinomState 0)).1 = .val (binomValQ (3:ℤ).toNat (10:ℤ).toNat) ∧
    0 < binomValQ (3:ℤ).toNat (10:ℤ).toNat ∧ binomValQ (3:ℤ).toNat (10:ℤ).toNat ≤ 1 ∧
    (binom_exact 0 0 (mkBinomState 0)).1 = .val 1 ∧
    binomValQ (3:ℤ).toNat (10:ℤ).toNat = 11 / 32 := by
  have t := binom_exact_pos_le_one 3 10 0 (by norm_num) (by norm_num) (by norm_num)
  have hval : binomValQ (3:ℤ).toNat (10:ℤ).toNat = 11 / 32 := by
    show binomValQ 3 10 = 11 / 32
    rw [binomValQ, if_neg (by norm_num), show min 3 (10 - 3) = 3 from by norm_num,
      pbinomQ_eq, Finset.sum_range_succ, Finset.sum_range_succ, Finset.sum_range_succ,
      Finset.sum_range_one,
      show Nat.choose 10 0 = 1 from by decide, show Nat.choose 10 1 = 10 from by decide,
      show Nat.choose 10 2 = 45 from by decide, show Nat.choose 10 3 = 120 from by decide]
    norm_num
  exact ⟨⟨by norm_num, by norm_num, by norm_num⟩, t.1, t.2.1, t.2.2.1, t.2.2.2, hval⟩

/-- C10: every out-of-domain call `binom_exact(k, n)` with `n < 0`,
`k < 0` or `k > n` returns NaN; the `n < 0 && k < 0` release-sentinel call
frees the two arrays (leaving the static `n_size` as is) and every other
out-of-domain call leaves the cache state untouched (the result is the
same for every incoming state, so the table is neither read nor
written). -/
theorem binom_exact_out_of_domain (k n : ℤ) (s : BinomState)
    (h : n < 0 ∨ k < 0 ∨ n < k) :
    (binom_exact k n s).1 = .nan ∧
    ((n < 0 ∧ k < 0) → (binom_exact k n s).2 = ⟨[], [], s.n_size⟩) ∧
    (¬ (n < 0 ∧ k < 0) → (binom_exact k n s).2 = s) := by
  by_cases hs : n < 0 ∧ k < 0
  · simp only [binom_exact, if_pos hs]
    exact ⟨by trivial, fun _ => by trivial, fun hc => absurd hs hc⟩
  · simp only [binom_exact, if_neg hs, if_pos h]
    exact ⟨by trivial, fun hc => absurd hc hs, fun _ => by trivial⟩

/-- C10 witness: the release sentinel `binom_exact(-1, -1)` on a cache
with two filled rows returns NaN and frees the arrays, and the
out-of-domain call `binom_exact(2, 1)` on the empty cache returns NaN and
leaves the state untouched. -/
theorem binom_exact_out_of_domain_witness :
    ((-1:ℤ) < 0 ∨ (-1:ℤ) < 0 ∨ (-1:ℤ) < -1) ∧
    (binom_exact (-1) (-1) (mkBinomState 2)).1 = .nan ∧
    (binom_exact (-1) (-1) (mkBinomState 2)).2 = ⟨[], [], (mkBinomState 2).n_size⟩ ∧
    ((1:ℤ) < 0 ∨ (2:ℤ) < 0 ∨ (1:ℤ) < 2) ∧
    (binom_exact 2 1 (mkBinomState 0)).1 = .nan ∧
    (binom_exact 2 1 (mkBinomState 0)).2 = mkBinomState 0 := by
  have t1 := binom_exact_out_of_domain (-1) (-1) (mkBinomState 2) (by norm_num)
  have t2 := binom_exact_out_of_domain 2 1 (mkBinomState 0) (by norm_num)
  exact ⟨by norm_num, t1.1, t1.2.1 (by norm_num), by norm_num, t2.1,
    t2.2.2 (by norm_num)⟩

/-! ## Per-sample record data (mochatools.c, process)

One entry per sample of the decoded per-record format arrays:
`gt0_arr`/`gt1_arr` (allele indices or `bcf_int16_missing`),
`gt_phase_arr` (-1/0/1 or `bcf_int8_missing`), `fmt_sign_arr` (-1/0/1 or
`bcf_int8_missing`), `ad0_arr`/`ad1_arr`, the single-value float BAF
(`none` = NaN), and the gender code (0 unknown, 1 male, 2 female). -/

def bcf_int16_missing : ℤ := -32768

def bcf_int8_missing : ℤ := -128

structure Sample where
  gt0 : ℤ
  gt1 : ℤ
  gt_phase : ℤ
  fmt_sign : ℤ
  ad0 : ℤ
  ad1 : ℤ
  baf : Option ℚ
  gender : ℤ
deriving Repr, DecidableEq

/-! ## AlleleInference (mochatools.c, process, lines 632-677) -/

/-- Modelled from the spec: `get_median` lives in mocha.h, which is not
under src/.  §4.1: "classic selection-based median over an index-mapped
view; when `n` is even, average of the two middle elements"; an empty
selection yields NaN.  At the allele-inference call site the index map
does not filter NaNs, so a NaN among the selected values is also mapped
to NaN (`none`); the theorems below hold for every possible median value,
so this choice carries no weight. -/
def get_median (xs : List (Option ℚ)) : Option ℚ :=
  if xs = [] ∨ xs.any (fun x => x.isNone) then none
  else
    let s := (xs.filterMap id).mergeSort (fun a b => decide (a ≤ b))
    if s.length % 2 = 1 then some (s.getD (s.length / 2) 0)
    else some ((s.getD (s.length / 2 - 1) 0 + s.getD (s.length / 2) 0) / 2)

/-- `if (median[i] < .5) alleles_idx[i] = alleles[0]; else if
(median[i] > .5) alleles_idx[i] = alleles[1];` — with a NaN median both
comparisons are false and the initial -1 survives. -/
def classify_allele (a0 a1 : ℤ) (med : Option ℚ) : ℤ :=
  match med with
  | none => -1
  | some q => if q < 1 / 2 then a0 else if 1 / 2 < q then a1 else -1

/-- The resolution block (lines 665-674): same classification makes both
undecided; a single unknown is inferred by complement. -/
def resolve_alleles (a0 a1 i0 i1 : ℤ) : ℤ × ℤ :=
  if i0 = i1 then (-1, -1)
  else if i0 = -1 then ((if i1 = a0 then a1 else a0), i1)
  else if i1 = -1 then (i0, (if i0 = a0 then a1 else a0))
  else (i0, i1)

/-- One candidate pair: for `i = 0, 1` collect the samples homozygous for
`alleles[i]` (`gt0 == alleles[i] && gt1 == alleles[i]`), take the median
BAF over them, classify, then resolve. -/
def infer_pair (a0 a1 : ℤ) (samples : List Sample) : ℤ × ℤ :=
  resolve_alleles a0 a1
    (classify_allele a0 a1 (get_median
      ((samples.filter (fun s => decide (s.gt0 = a0 ∧ s.gt1 = a0))).map Sample.baf)))
    (classify_allele a0 a1 (get_median
      ((samples.filter (fun s => decide (s.gt0 = a1 ∧ s.gt1 = a1))).map Sample.baf)))

/-- The `switch (rec->n_allele)` (lines 636-652): candidates are
`(-1, -1)`, `(0, 1)`, `(1, 2)` for 1, 2, 3 alleles; any other count is a
fatal `error()` (`none`). -/
def infer_alleles (n_allele : ℕ) (samples : List Sample) : Option (ℤ × ℤ) :=
  match n_allele with
  | 1 => some (infer_pair (-1) (-1) samples)
  | 2 => some (infer_pair 0 1 samples)
  | 3 => some (infer_pair 1 2 samples)
  | _ => none

/-- The gating of the AlleleInference block inside `process`: line 533
skips everything when GT decoding fails, line 632 `if (!baf || !lrr) goto
ret;` skips it when either the BAF or the LRR single-value float format is
absent, and the block itself runs only under `--infer-BAF-alleles`.
Returns the `(ALLELE_A, ALLELE_B)` pair written, or `none` when nothing is
written. -/
def process_allele_ab (gt_ok baf lrr infer : Bool) (n_allele : ℕ)
    (samples : List Sample) : Option (ℤ × ℤ) :=
  if ¬gt_ok then none
  else if ¬baf ∨ ¬lrr then none
  else if ¬infer then none
  else infer_alleles n_allele samples

theorem classify_allele_mem (a0 a1 : ℤ) (m : Option ℚ) :
    classify_allele a0 a1 m = -1 ∨ classify_allele a0 a1 m = a0 ∨
      classify_allele a0 a1 m = a1 := by
  rcases m with _ | q
  · left
    rfl
  · simp only [classify_allele]
    split_ifs <;> tauto

theorem resolve_alleles_ok (a0 a1 i0 i1 : ℤ)
    (h01 : a0 ≠ a1)
    (hm0 : i0 = -1 ∨ i0 = a0 ∨ i0 = a1) (hm1 : i1 = -1 ∨ i1 = a0 ∨ i1 = a1) :
    ((resolve_alleles a0 a1 i0 i1).1 = -1 ∨ (resolve_alleles a0 a1 i0 i1).1 = a0 ∨
      (resolve_alleles a0 a1 i0 i1).1 = a1) ∧
    ((resolve_alleles a0 a1 i0 i1).2 = -1 ∨ (resolve_alleles a0 a1 i0 i1).2 = a0 ∨
      (resolve_alleles a0 a1 i0 i1).2 = a1) ∧
    ((resolve_alleles a0 a1 i0 i1).1 = (resolve_alleles a0 a1 i0 i1).2 →
      (resolve_alleles a0 a1 i0 i1).1 = -1 ∧ (resolve_alleles a0 a1 i0 i1).2 = -1) := by
  rcases hm0 with h0 | h0 | h0 <;> rcases hm1 with h1 | h1 | h1 <;>
    subst h0 <;> subst h1 <;>
    simp only [resolve_alleles] <;> split_ifs <;> simp_all <;> tauto

/-- C7: whenever the AlleleInference block computes an `(ALLELE_A,
ALLELE_B)` pair (`n_allele ∈ {1,2,3}`), each value lies in
`{-1, 0, …, n_allele-1}` and the two differ unless both are -1; in
particular two non-negative values differ. -/
theorem infer_alleles_sound (n_allele : ℕ) (samples : List Sample) (a b : ℤ)
    (hres : infer_alleles n_allele samples = some (a, b)) :
    (-1 ≤ a ∧ a < (n_allele : ℤ)) ∧ (-1 ≤ b ∧ b < (n_allele : ℤ)) ∧
    (a = b → a = -1 ∧ b = -1) ∧ (0 ≤ a → 0 ≤ b → a ≠ b) := by
  have main : ∀ a0 a1 : ℤ, a0 ≠ a1 →
      infer_pair a0 a1 samples = (a, b) →
      (a = -1 ∨ a = a0 ∨ a = a1) ∧ (b = -1 ∨ b = a0 ∨ b = a1) ∧
      (a = b → a = -1 ∧ b = -1) := by
    intro a0 a1 h01 hp
    have h := resolve_alleles_ok a0 a1
      (classify_allele a0 a1 (get_median
        ((samples.filter (fun s => decide (s.gt0 = a0 ∧ s.gt1 = a0))).map Sample.baf)))
      (classify_allele a0 a1 (get_median
        ((samples.filter (fun s => decide (s.gt0 = a1 ∧ s.gt1 = a1))).map Sample.baf)))
      h01 (classify_allele_mem _ _ _) (classify_allele_mem _ _ _)
    rw [show resolve_alleles a0 a1
        (classify_allele a0 a1 (get_median
          ((samples.filter (fun s => decide (s.gt0 = a0 ∧ s.gt1 = a0))).map Sample.baf)))
        (classify_allele a0 a1 (get_median
          ((samples.filter (fun s => decide (s.gt0 = a1 ∧ s.gt1 = a1))).map Sample.baf))) =
        infer_pair a0 a1 samples from rfl, hp] at h
    exact h
  match n_allele, hres with
  | 1, hres =>
    have hres' : infer_pair (-1) (-1) samples = (a, b) := by
      simpa [infer_alleles] using hres
    have hc0 := classify_allele_mem (-1 : ℤ) (-1)
      (get_median ((samples.filter
        (fun s => decide (s.gt0 = (-1 : ℤ) ∧ s.gt1 = (-1 : ℤ)))).map Sample.baf))
    have heq : infer_pair (-1) (-1) samples = (-1, -1) := by
      rw [infer_pair]
      rcases hc0 with h | h | h <;>
        rw [h] <;> simp [resolve_alleles]
    rw [heq] at hres'
    have ha : a = -1 := by simpa using congrArg Prod.fst hres'.symm
    have hb : b = -1 := by simpa using congrArg Prod.snd hres'.symm
    subst ha
    subst hb
    norm_num
  | 2, hres =>
    have hres' : infer_pair 0 1 samples = (a, b) := by
      simpa [infer_alleles] using hres
    have h := main 0 1 (by norm_num) hres'
    refine ⟨by omega, by omega, h.2.2, ?_⟩
    intro ha hb hab
    have := h.2.2 hab
    omega
  | 3, hres =>
    have hres' : infer_pair 1 2 samples = (a, b) := by
      simpa [infer_alleles] using hres
    have h := main 1 2 (by norm_num) hres'
    refine ⟨by omega, by omega, h.2.2, ?_⟩
    intro ha hb hab
    have := h.2.2 hab
    omega

/-- C7 witness: the spec's scenario 3 reduced to one AA sample
(BAF 1/4) and one BB sample (BAF 3/4): inference yields
`ALLELE_A = 0`, `ALLELE_B = 1`, inside range and distinct. -/
theorem infer_alleles_sound_witness :
    infer_alleles 2 [⟨0, 0, 0, 0, 0, 0, some (1/4), 0⟩,
      ⟨1, 1, 0, 0, 0, 0, some (3/4), 0⟩] = some (0, 1) ∧
    ((-1 ≤ (0:ℤ) ∧ (0:ℤ) < ((2:ℕ) : ℤ)) ∧ (-1 ≤ (1:ℤ) ∧ (1:ℤ) < ((2:ℕ) : ℤ)) ∧
     ((0:ℤ) = 1 → (0:ℤ) = -1 ∧ (1:ℤ) = -1) ∧
     (0 ≤ (0:ℤ) → 0 ≤ (1:ℤ) → (0:ℤ) ≠ 1)) := by
  have hres : infer_alleles 2 [⟨0, 0, 0, 0, 0, 0, some (1/4), 0⟩,
      ⟨1, 1, 0, 0, 0, 0, some (3/4), 0⟩] = some (0, 1) := by
    simp [infer_alleles, infer_pair, get_median, classify_allele, resolve_alleles,
      List.filter]
    norm_num
  exact ⟨hres, infer_alleles_sound 2 _ 0 1 hres⟩

/-- C6, counterexample: a record with `n_allele = 2`, inference enabled,
GT decoded and the single-value float BAF format present, but no LRR
format: `if (!baf || !lrr) goto ret;` (line 632) jumps past the
AlleleInference block and no `ALLELE_A`/`ALLELE_B` annotation is written,
so GT and BAF presence alone do not suffice. -/
theorem process_allele_ab_counterexample :
    process_allele_ab true true false true 2
      [⟨0, 1, 1, 0, 0, 0, some (1/2), 0⟩] = none ∧
    (2 = 1 ∨ 2 = 2 ∨ 2 = 3) := by
  exact ⟨rfl, by norm_num⟩

/-- C6 (amended): for every record with `n_allele ∈ {1,2,3}` where allele
inference is enabled and the GT, single-value float BAF *and* single-value
float LRR format fields are all present, the `ALLELE_A` and `ALLELE_B`
annotations are written; the inference computation itself reads only GT
and BAF, but the gate at line 632 additionally requires LRR. -/
theorem process_allele_ab_written (gt_ok baf lrr infer : Bool) (n_allele : ℕ)
    (samples : List Sample)
    (hgt : gt_ok = true) (hbaf : baf = true) (hlrr : lrr = true)
    (hinf : infer = true) (hna : n_allele = 1 ∨ n_allele = 2 ∨ n_allele = 3) :
    (process_allele_ab gt_ok baf lrr infer n_allele samples).isSome = true := by
  subst hgt
  subst hbaf
  subst hlrr
  subst hinf
  rcases hna with h | h | h <;> subst h <;>
    simp [process_allele_ab, infer_alleles]

/-- C6 witness: with GT, BAF and LRR present and `n_allele = 2` the
annotation pair is written for the scenario-3 record. -/
theorem process_allele_ab_written_witness :
    (true = true ∧ true = true ∧ true = true ∧ true = true ∧
      ((2:ℕ) = 1 ∨ (2:ℕ) = 2 ∨ (2:ℕ) = 3)) ∧
    (process_allele_ab true true true true 2
      [⟨0, 0, 0, 0, 0, 0, some (1/4), 0⟩,
       ⟨1, 1, 0, 0, 0, 0, some (3/4), 0⟩]).isSome = true := by
  refine ⟨⟨rfl, rfl, rfl, rfl, by norm_num⟩, ?_⟩
  exact process_allele_ab_written true true true true 2 _ rfl rfl rfl rfl (by norm_num)

/-! ## mann_whitney_u (mochatools.c, lines 414-463) and welch_t_test (402-412)

`qsort` with `cmpfunc` sorts each array ascending; since ℚ is linearly
ordered and equal elements are indistinguishable, `mergeSort` models it
exactly.  The merge walk reads
`curr = (j == nb || (i < na && a[i] < b[j])) ? a[i] : b[j]`, counts the
front runs `ca`, `cb` of `curr` in each remainder, adds
`ca * (j - cb*0.5)` (with `j` already advanced past the run) to `U` and,
only when `ca && cb`, adds `(tie^2 - 1)*tie` with `tie = ca + cb` to the
`ties` accumulator.  The recursive sum below accumulates the same
contributions (exact rational addition is commutative and associative). -/

theorem takeWhile_head_pos (x : ℚ) (t : List ℚ) :
    0 < ((x :: t).takeWhile (fun y => decide (y = x))).length := by
  simp [List.takeWhile_cons]

/-- `curr = (j == nb || (i < na && a[i] < b[j])) ? a[i] : b[j]` on the
remaining suffixes (`j == nb` means `b` exhausted). -/
def currOf (a b : List ℚ) : ℚ :=
  match a, b with
  | x :: _, [] => x
  | x :: _, y :: _ => if x < y then x else y
  | [], y :: _ => y
  | [], [] => 0

theorem currOf_head (a b : List ℚ) (h : ¬(a = [] ∧ b = [])) :
    (∃ t, a = currOf a b :: t) ∨ (∃ u, b = currOf a b :: u) := by
  match a, b with
  | x :: t, [] => exact Or.inl ⟨t, rfl⟩
  | x :: t, y :: u =>
    by_cases hxy : x < y
    · exact Or.inl ⟨t, by simp [currOf, hxy]⟩
    · exact Or.inr ⟨u, by simp [currOf, hxy]⟩
  | [], y :: u => exact Or.inr ⟨u, rfl⟩
  | [], [] => exact absurd ⟨rfl, rfl⟩ h

/-- The merge walk of `mann_whitney_u` over the two sorted arrays,
returning `(U, ties)`; `j` counts the elements of `b` already consumed. -/
def mwuWalk (a b : List ℚ) (j : ℕ) : ℚ × ℚ :=
  if a = [] ∧ b = [] then (0, 0)
  else
    let curr := currOf a b
    let ca := (a.takeWhile (fun x => decide (x = curr))).length
    let cb := (b.takeWhile (fun x => decide (x = curr))).length
    let rest := mwuWalk (a.drop ca) (b.drop cb) (j + cb)
    (rest.1 + (ca : ℚ) * (((j : ℚ) + (cb : ℚ)) - (cb : ℚ) / 2),
     rest.2 + if ca ≠ 0 ∧ cb ≠ 0 then
       (((ca : ℚ) + (cb : ℚ)) ^ 2 - 1) * ((ca : ℚ) + (cb : ℚ)) else 0)
termination_by a.length + b.length
decreasing_by
  rename_i h
  simp only [List.length_drop]
  have hca : ((a.takeWhile (fun x => decide (x = currOf a b))).length) ≤ a.length :=
    (List.takeWhile_sublist _).length_le
  have hcb : ((b.takeWhile (fun x => decide (x = currOf a b))).length) ≤ b.length :=
    (List.takeWhile_sublist _).length_le
  rcases currOf_head a b h with ⟨t, ht⟩ | ⟨u, hu⟩
  · have hpos := takeWhile_head_pos (currOf a b) t
    rw [← ht] at hpos
    omega
  · have hpos := takeWhile_head_pos (currOf a b) u
    rw [← hu] at hpos
    omega

/-- The sorting step (`qsort(a, na, sizeof(float), cmpfunc)`), then the walk. -/
def mwuSorted (l : List ℚ) : List ℚ := l.mergeSort (fun x y => decide (x ≤ y))

/-- The `ties` accumulator of `mann_whitney_u` on inputs `a`, `b`. -/
def mwuTies (a b : List ℚ) : ℚ := (mwuWalk (mwuSorted a) (mwuSorted b) 0).2

/-- `(int)U_min`: C truncation toward zero. -/
def ratTrunc (q : ℚ) : ℤ := q.num / (q.den : ℤ)

/-- The result of `mann_whitney_u`: the `HUGE_VAL` sentinel, an exactly
computed rational (the size-one branches and the `var2 == 0` branch), the
normal approximation `kf_erfc(-z)` kept symbolic with its rational
arguments, or the doubled-and-clamped exact 1947 CDF
(`mann_whitney_1947_cdf`, external bcftools code) kept symbolic. -/
inductive MwuRes
  | hugeVal
  | val (q : ℚ)
  | erfc (na nb : ℕ) (uMin var2 : ℚ)
  | exact1947 (na nb : ℕ) (u : ℤ)
deriving Repr, DecidableEq

/-- `mann_whitney_u(float *a, float *b, int na, int nb)` (lines 421-463):
sort both arrays, merge-walk for `U` and `ties`, return `HUGE_VAL` when a
sample is empty; `U_min = min(U, na*nb - U)`; size-one samples use
`2*(floor(U_min)+1)/(other+1)`; `na >= 8 || nb >= 8` uses the tie-corrected
normal approximation (returning 1.0 outright when `(N^2-1)*N - ties == 0`);
otherwise the exact CDF branch. -/
def mann_whitney_u (a b : List ℚ) : MwuRes :=
  let w := mwuWalk (mwuSorted a) (mwuSorted b) 0
  let na := a.length
  let nb := b.length
  if na = 0 ∨ nb = 0 then .hugeVal
  else
    let uMin := min w.1 ((na : ℚ) * (nb : ℚ) - w.1)
    if na = 1 then .val (2 * ((⌊uMin⌋ : ℚ) + 1) / ((nb : ℚ) + 1))
    else if nb = 1 then .val (2 * ((⌊uMin⌋ : ℚ) + 1) / ((na : ℚ) + 1))
    else if 8 ≤ na ∨ 8 ≤ nb then
      let nq : ℚ := (na : ℚ) + (nb : ℚ)
      let var2 := (nq ^ 2 - 1) * nq - w.2
      if var2 = 0 then .val 1
      else .erfc na nb uMin (var2 * ((na : ℚ) * (nb : ℚ)) / nq / (nq - 1) / 12)
    else .exact1947 na nb (ratTrunc uMin)

/-- The result of `welch_t_test` (lines 402-412): the `HUGE_VAL` sentinel
when either sample has fewer than two entries, else
`kf_betai(v/2, 0.5, v/(v + t^2))` — kept symbolic with the two input
arrays (the value needs `sqrt` and the incomplete beta, outside ℚ). -/
inductive WelchRes
  | hugeVal
  | betai (a b : List ℚ)
deriving Repr, DecidableEq

/-- `welch_t_test(float *a, float *b, int na, int nb)`:
`if (na < 2 || nb < 2) return HUGE_VAL;` then the finite p-value. -/
def welch_t_test (a b : List ℚ) : WelchRes :=
  if a.length < 2 ∨ b.length < 2 then .hugeVal else .betai a b

/-! ## BAF_Phase_Test emission (mochatools.c, process, lines 622-630)

`ret[2] = 0.0f - (float)log10(welch_t_test(...))` and
`ret[3] = 0.0f - (float)log10(mann_whitney_u(...))`.  On the `HUGE_VAL`
(+∞) sentinel, `log10(+∞) = +∞` and `0.0f - (+∞) = -∞`: the emitted entry
is minus infinity.  Finite kernel values stay symbolic under `-log10`. -/

/-- An emitted float annotation entry: `-∞`, `+∞`, a median value, or the
symbolic `-log10` of a finite kernel result. -/
inductive Ann
  | negInf
  | posInf
  | med (m : Option ℚ)
  | logW (r : WelchRes)
  | logM (r : MwuRes)
deriving Repr, DecidableEq

/-- `0.0f - (float)log10(x)` for the Welch kernel result. -/
def negLog10W : WelchRes → Ann
  | .hugeVal => .negInf
  | r => .logW r

/-- `0.0f - (float)log10(x)` for the Mann-Whitney kernel result. -/
def negLog10M : MwuRes → Ann
  | .hugeVal => .negInf
  | r => .logM r

/-- The `BAF_Phase_Test` emission gate and tuple (lines 622-630):
emitted only when `args->phase && ac_het_phase[0] && ac_het_phase[1]`;
`baf0`, `baf1` are the first `ac_het_phase[k]` entries of `baf_arr[k]`
(so their lengths are the two counts). -/
def baf_phase_test (phase : Bool) (baf0 baf1 : List ℚ) :
    Option (Ann × Ann × Ann × Ann) :=
  if phase = true ∧ baf0.length ≠ 0 ∧ baf1.length ≠ 0 then
    some (.med (get_median (baf0.map some)), .med (get_median (baf1.map some)),
      negLog10W (welch_t_test baf0 baf1), negLog10M (mann_whitney_u baf0 baf1))
  else none

theorem mwuWalk_c5 : mwuWalk [(1:ℚ)/2] [1/4, 3/4] 0 = (1, 0) := by
  have e2 : mwuWalk ([]:List ℚ) [] 2 = (0, 0) := by
    rw [mwuWalk]
    norm_num
  have e1 : mwuWalk ([]:List ℚ) [3/4] 1 = (0, 0) := by
    rw [mwuWalk]
    norm_num [currOf, List.takeWhile, e2]
  have e0 : mwuWalk [(1:ℚ)/2] [3/4] 1 = (1, 0) := by
    rw [mwuWalk]
    norm_num [currOf, List.takeWhile, e1]
  rw [mwuWalk]
  norm_num [currOf, List.takeWhile, e0]

theorem mwuSorted_single : mwuSorted [(1:ℚ)/2] = [(1:ℚ)/2] :=
  List.mergeSort_singleton _

theorem mwuSorted_pair : mwuSorted [(1:ℚ)/4, 3/4] = [(1:ℚ)/4, 3/4] := by
  apply List.mergeSort_of_sorted
  constructor
  · intro y hy
    simp at hy
    subst hy
    norm_num
  · exact List.pairwise_singleton _ _

theorem mwu_c5_val : mann_whitney_u [(1:ℚ)/2] [1/4, 3/4] = .val (4/3) := by
  rw [mann_whitney_u, mwuSorted_single, mwuSorted_pair, mwuWalk_c5]
  norm_num

theorem baf_phase_test_eval : baf_phase_test true [(1:ℚ)/2] [1/4, 3/4] =
    some (.med (some (1/2)), .med (some (1/2)), Ann.negInf, .logM (.val (4/3))) := by
  rw [baf_phase_test, if_pos (by norm_num)]
  rw [mwu_c5_val]
  rw [show welch_t_test [(1:ℚ)/2] [1/4, 3/4] = .hugeVal from by rw [welch_t_test]; norm_num]
  rw [show get_median ([(1:ℚ)/2].map some) = some (1/2) from by
    rw [get_median, if_neg (by simp)]
    have hfm : List.filterMap id ([(1:ℚ)/2].map some) = [(1:ℚ)/2] := by simp
    rw [hfm, show List.mergeSort [(1:ℚ)/2] (fun a b => decide (a ≤ b)) = [(1:ℚ)/2]
      from List.mergeSort_singleton _]
    simp]
  rw [show get_median ([(1:ℚ)/4, 3/4].map some) = some (1/2) from by
    rw [get_median, if_neg (by simp)]
    have hfm : List.filterMap id ([(1:ℚ)/4, 3/4].map some) = [(1:ℚ)/4, 3/4] := by simp
    rw [hfm, show List.mergeSort [(1:ℚ)/4, 3/4] (fun a b => decide (a ≤ b)) = [(1:ℚ)/4, 3/4]
      from mwuSorted_pair]
    simp
    norm_num]
  rfl

/-- C5, counterexample: the record behind `baf_phase_test true [1/2]
[1/4, 3/4]` (phase bucket 0 holds one BAF value, bucket 1 two) emits
`BAF_Phase_Test`, `welch_t_test` returns the `HUGE_VAL` (+∞) sentinel
(bucket 0 has fewer than two values), yet the emitted third entry is
`-∞` (`0.0f - log10(+∞)`), not the `+∞` sentinel verbatim. -/
theorem baf_phase_test_counterexample :
    baf_phase_test true [(1:ℚ)/2] [1/4, 3/4] =
      some (.med (some (1/2)), .med (some (1/2)), Ann.negInf, .logM (.val (4/3))) ∧
    welch_t_test [(1:ℚ)/2] [1/4, 3/4] = .hugeVal ∧
    Ann.negInf ≠ Ann.posInf := by
  refine ⟨baf_phase_test_eval, by rw [welch_t_test]; norm_num, by simp⟩

/-- C5 (amended): for every record where `BAF_Phase_Test` is emitted and a
kernel returns the `HUGE_VAL` (+∞) sentinel, the corresponding emitted
entry is `-∞` — the sentinel negated by the `0 - log10(·)` transform — and
never the `+∞` sentinel itself; moreover the Mann-Whitney sentinel is
unreachable at this call site because both phase buckets are nonempty. -/
theorem baf_phase_test_sentinel (phase : Bool) (baf0 baf1 : List ℚ)
    (t : Ann × Ann × Ann × Ann) (hemit : baf_phase_test phase baf0 baf1 = some t) :
    (welch_t_test baf0 baf1 = .hugeVal →
      t.2.2.1 = Ann.negInf ∧ t.2.2.1 ≠ Ann.posInf) ∧
    (mann_whitney_u baf0 baf1 = .hugeVal →
      t.2.2.2 = Ann.negInf ∧ t.2.2.2 ≠ Ann.posInf) ∧
    mann_whitney_u baf0 baf1 ≠ .hugeVal := by
  rw [baf_phase_test] at hemit
  by_cases hc : phase = true ∧ baf0.length ≠ 0 ∧ baf1.length ≠ 0
  · rw [if_pos hc] at hemit
    have ht : (Ann.med (get_median (baf0.map some)), Ann.med (get_median (baf1.map some)),
        negLog10W (welch_t_test baf0 baf1), negLog10M (mann_whitney_u baf0 baf1)) = t := by
      injection hemit
    subst ht
    refine ⟨?_, ?_, ?_⟩
    · intro hw
      simp only [hw, negLog10W]
      exact ⟨by trivial, by simp⟩
    · intro hm
      simp only [hm, negLog10M]
      exact ⟨by trivial, by simp⟩
    · have hcond : ¬(baf0.length = 0 ∨ baf1.length = 0) := by tauto
      simp only [mann_whitney_u, hcond, if_false]
      split_ifs <;> simp
  · rw [if_neg hc] at hemit
    exact absurd hemit (by simp)

/-- C5 witness: the amended theorem applied at the counterexample record,
with the emission hypothesis discharged by evaluation. -/
theorem baf_phase_test_sentinel_witness :
    baf_phase_test true [(1:ℚ)/2] [1/4, 3/4] =
      some (.med (some (1/2)), .med (some (1/2)), Ann.negInf, .logM (.val (4/3))) ∧
    ((Ann.med (some ((1:ℚ)/2)), Ann.med (some ((1:ℚ)/2)), Ann.negInf,
        Ann.logM (MwuRes.val (4/3))) : Ann × Ann × Ann × Ann).2.2.1 = Ann.negInf ∧
    ((Ann.med (some ((1:ℚ)/2)), Ann.med (some ((1:ℚ)/2)), Ann.negInf,
        Ann.logM (MwuRes.val (4/3))) : Ann × Ann × Ann × Ann).2.2.1 ≠ Ann.posInf ∧
    mann_whitney_u [(1:ℚ)/2] [1/4, 3/4] ≠ .hugeVal := by
  have hemit := baf_phase_test_eval
  have h := baf_phase_test_sentinel true [(1:ℚ)/2] [1/4, 3/4] _ hemit
  have hw : welch_t_test [(1:ℚ)/2] [1/4, 3/4] = .hugeVal := by
    rw [welch_t_test]
    norm_num
  exact ⟨hemit, (h.1 hw).1, (h.1 hw).2, h.2.2⟩

/-! ## RecordAggregator (mochatools.c, process, lines 530-592)

The per-sample loop.  Record-level facts decoded before the loop become
flags: `gt_phase` (`bcf_get_genotype_phase` nonzero), `fmt_sign`
(`bcf_get_format_sign` nonzero), `gender` (`args->gender` loaded), `ad`
(`bcf_get_allelic_depth` nonzero), `baf` (single-value float BAF format
present).  Writes into `baf_arr[k]` are recorded as an append-only list of
`(position, value)` pairs per bucket; the array slot written is
`baf_arr[idx][ac_het_phase[idx] - 1]` with the count already incremented.
The AD-derived estimate `(alt + 0.5f)/(ref + alt + 1.0f)` is a real float
(its numerator is never 0, so it is never NaN — at worst ±inf), hence it
always passes the `!isnan(curr_baf)` test; it is modelled as `some q`. -/

structure Flags where
  gt_phase : Bool
  fmt_sign : Bool
  gender : Bool
  ad : Bool
  baf : Bool
deriving Repr, DecidableEq

structure AggState where
  ac_het : ℕ
  ac_sex : ℕ × ℕ × ℕ × ℕ
  ac_het_sex : ℕ × ℕ
  ac_het_phase : ℕ × ℕ
  fmt_bal : ℕ × ℕ
  fmt_bal_phase : ℕ × ℕ
  ad_het : ℤ × ℤ
  baf_writes : List (ℕ × ℚ) × List (ℕ × ℚ)
deriving Repr, DecidableEq

def initAgg : AggState := ⟨0, (0, 0, 0, 0), (0, 0), (0, 0), (0, 0), (0, 0), (0, 0), ([], [])⟩

/-- `cnt[idx]++` for a two-cell counter indexed by 0 or 1. -/
def bump2 (p : ℕ × ℕ) (idx : ℤ) : ℕ × ℕ :=
  if idx = 0 then (p.1 + 1, p.2) else if idx = 1 then (p.1, p.2 + 1) else p

/-- `ac_sex[idx]++` for the four-cell counter. -/
def bump4 (p : ℕ × ℕ × ℕ × ℕ) (idx : ℤ) : ℕ × ℕ × ℕ × ℕ :=
  if idx = 0 then (p.1 + 1, p.2.1, p.2.2.1, p.2.2.2)
  else if idx = 1 then (p.1, p.2.1 + 1, p.2.2.1, p.2.2.2)
  else if idx = 2 then (p.1, p.2.1, p.2.2.1 + 1, p.2.2.2)
  else if idx = 3 then (p.1, p.2.1, p.2.2.1, p.2.2.2 + 1)
  else p

/-- `int idx_fmt_sign = (fmt_sign && fmt_sign_arr[i] != missing &&
fmt_sign_arr[i] != 0) ? (1 - fmt_sign_arr[i]) / 2 : -1;` -/
def idx_fmt_sign (fl : Flags) (x : Sample) : ℤ :=
  if fl.fmt_sign ∧ x.fmt_sign ≠ bcf_int8_missing ∧ x.fmt_sign ≠ 0
  then (1 - x.fmt_sign) / 2 else -1

/-- `int idx_gt_phase = gt_phase && (gt_phase_arr[i] == -1 ||
gt_phase_arr[i] == 1) ? (1 - gt_phase_arr[i]) / 2 : -1;` -/
def idx_gt_phase (fl : Flags) (x : Sample) : ℤ :=
  if fl.gt_phase ∧ (x.gt_phase = -1 ∨ x.gt_phase = 1)
  then (1 - x.gt_phase) / 2 else -1

/-- `int idx_fmt_phase = (idx_gt_phase >= 0 && idx_fmt_sign >= 0) ?
(1 - fmt_sign_arr[i] * gt_phase_arr[i]) / 2 : -1;` -/
def idx_fmt_phase (fl : Flags) (x : Sample) : ℤ :=
  if 0 ≤ idx_gt_phase fl x ∧ 0 ≤ idx_fmt_sign fl x
  then (1 - x.fmt_sign * x.gt_phase) / 2 else -1

/-- `curr_baf` at the end of the loop body: `NAN`, overwritten by the
AD-derived estimate `(alt + 0.5f)/(ref + alt + 1.0f)` when AD is present,
overwritten again by the BAF format value when BAF is present. -/
def curr_baf (fl : Flags) (x : Sample) : Option ℚ :=
  if fl.baf then x.baf
  else if fl.ad then some (((x.ad1 : ℚ) + 1 / 2) / ((x.ad0 : ℚ) + (x.ad1 : ℚ) + 1))
  else none

/-- `if (idx_fmt_sign >= 0) fmt_bal[idx_fmt_sign]++;` -/
def agg_fmt_bal (fl : Flags) (x : Sample) (st : AggState) : AggState :=
  if 0 ≤ idx_fmt_sign fl x
  then { st with fmt_bal := bump2 st.fmt_bal (idx_fmt_sign fl x) } else st

/-- The `ac_sex` block guarded by `args->gender && (gender[i] == 1 ||
gender[i] == 2)`. -/
def agg_sex (fl : Flags) (x : Sample) (st : AggState) : AggState :=
  if fl.gender ∧ (x.gender = 1 ∨ x.gender = 2) then
    (if x.gt0 = 0 ∧ x.gt1 = 0 then { st with ac_sex := bump4 st.ac_sex (x.gender - 1) }
     else if 0 < x.gt0 ∧ 0 < x.gt1 then
       { st with ac_sex := bump4 st.ac_sex (2 + x.gender - 1) }
     else st)
  else st

/-- `if (args->gender && ...) ac_het_sex[gender[i] - 1]++;` -/
def agg_het_sex (fl : Flags) (x : Sample) (st : AggState) : AggState :=
  if fl.gender ∧ (x.gender = 1 ∨ x.gender = 2)
  then { st with ac_het_sex := bump2 st.ac_het_sex (x.gender - 1) } else st

/-- `if (idx_gt_phase >= 0) ac_het_phase[idx_gt_phase]++;` -/
def agg_het_phase (fl : Flags) (x : Sample) (st : AggState) : AggState :=
  if 0 ≤ idx_gt_phase fl x
  then { st with ac_het_phase := bump2 st.ac_het_phase (idx_gt_phase fl x) } else st

/-- `if (idx_fmt_phase >= 0) fmt_bal_phase[idx_fmt_phase]++;` -/
def agg_fmt_bal_phase (fl : Flags) (x : Sample) (st : AggState) : AggState :=
  if 0 ≤ idx_fmt_phase fl x
  then { st with fmt_bal_phase := bump2 st.fmt_bal_phase (idx_fmt_phase fl x) } else st

/-- `if (ad) { ad_het[0] += ref_cnt; ad_het[1] += alt_cnt; ... }` -/
def agg_ad (fl : Flags) (x : Sample) (st : AggState) : AggState :=
  if fl.ad then { st with ad_het := (st.ad_het.1 + x.ad0, st.ad_het.2 + x.ad1) } else st

/-- `if (idx_gt_phase >= 0 && !isnan(curr_baf))
baf_arr[idx_gt_phase][ac_het_phase[idx_gt_phase] - 1] = curr_baf;` —
recorded as an appended `(position, value)` pair. -/
def agg_write (fl : Flags) (x : Sample) (st : AggState) : AggState :=
  match curr_baf fl x with
  | some q =>
    if 0 ≤ idx_gt_phase fl x then
      (if idx_gt_phase fl x = 0 then
        { st with baf_writes :=
          (st.baf_writes.1 ++ [(st.ac_het_phase.1 - 1, q)], st.baf_writes.2) }
      else
        { st with baf_writes :=
          (st.baf_writes.1, st.baf_writes.2 ++ [(st.ac_het_phase.2 - 1, q)]) })
    else st
  | none => st

/-- One iteration of the per-sample loop (lines 549-592), as the
composition of the statement blocks above.  The source’s missingness test
reads `gt0_arr[i]` twice (`gt0 == missing || gt0 == missing`), so a sample
with only `gt1` missing is not skipped; the disjunction below reproduces
that. -/
def process_sample (fl : Flags) (st : AggState) (x : Sample) : AggState :=
  if x.gt0 = bcf_int16_missing ∨ x.gt0 = bcf_int16_missing then st
  else
    let st2 := agg_sex fl x (agg_fmt_bal fl x st)
    if x.gt0 = x.gt1 ∨ (x.gt0 ≠ 0 ∧ x.gt1 ≠ 0) then st2
    else
      agg_write fl x (agg_ad fl x (agg_fmt_bal_phase fl x
        (agg_het_phase fl x (agg_het_sex fl x { st2 with ac_het := st2.ac_het + 1 }))))

/-- The whole per-sample loop over the record's samples, in index order. -/
def process_record (fl : Flags) (samples : List Sample) : AggState :=
  samples.foldl (process_sample fl) initAgg

theorem agg_fmt_bal_pw (fl : Flags) (x : Sample) (st : AggState) :
    (agg_fmt_bal fl x st).ac_het_phase = st.ac_het_phase ∧
    (agg_fmt_bal fl x st).baf_writes = st.baf_writes := by
  rw [agg_fmt_bal]
  split <;> exact ⟨rfl, rfl⟩

theorem agg_sex_pw (fl : Flags) (x : Sample) (st : AggState) :
    (agg_sex fl x st).ac_het_phase = st.ac_het_phase ∧
    (agg_sex fl x st).baf_writes = st.baf_writes := by
  rw [agg_sex]
  split_ifs <;> exact ⟨rfl, rfl⟩

theorem agg_het_sex_pw (fl : Flags) (x : Sample) (st : AggState) :
    (agg_het_sex fl x st).ac_het_phase = st.ac_het_phase ∧
    (agg_het_sex fl x st).baf_writes = st.baf_writes := by
  rw [agg_het_sex]
  split <;> exact ⟨rfl, rfl⟩

theorem agg_fmt_bal_phase_pw (fl : Flags) (x : Sample) (st : AggState) :
    (agg_fmt_bal_phase fl x st).ac_het_phase = st.ac_het_phase ∧
    (agg_fmt_bal_phase fl x st).baf_writes = st.baf_writes := by
  rw [agg_fmt_bal_phase]
  split <;> exact ⟨rfl, rfl⟩

theorem agg_ad_pw (fl : Flags) (x : Sample) (st : AggState) :
    (agg_ad fl x st).ac_het_phase = st.ac_het_phase ∧
    (agg_ad fl x st).baf_writes = st.baf_writes := by
  rw [agg_ad]
  split <;> exact ⟨rfl, rfl⟩

theorem agg_het_phase_pw (fl : Flags) (x : Sample) (st : AggState) :
    (agg_het_phase fl x st).ac_het_phase =
      (if 0 ≤ idx_gt_phase fl x then bump2 st.ac_het_phase (idx_gt_phase fl x)
       else st.ac_het_phase) ∧
    (agg_het_phase fl x st).baf_writes = st.baf_writes := by
  rw [agg_het_phase]
  split_ifs <;> exact ⟨rfl, rfl⟩

theorem agg_write_pw (fl : Flags) (x : Sample) (st : AggState) :
    (agg_write fl x st).ac_het_phase = st.ac_het_phase ∧
    (agg_write fl x st).baf_writes.1.length = st.baf_writes.1.length +
      (if (curr_baf fl x).isSome ∧ idx_gt_phase fl x = 0 then 1 else 0) ∧
    (agg_write fl x st).baf_writes.2.length = st.baf_writes.2.length +
      (if (curr_baf fl x).isSome ∧ 0 ≤ idx_gt_phase fl x ∧ idx_gt_phase fl x ≠ 0
       then 1 else 0) := by
  rw [agg_write]
  rcases hc : curr_baf fl x with _ | q
  · simp [hc]
  · simp only [hc, Option.isSome_some, true_and]
    split_ifs <;> simp_all

theorem idx_gt_phase_cases (fl : Flags) (x : Sample) :
    idx_gt_phase fl x = -1 ∨ idx_gt_phase fl x = 0 ∨ idx_gt_phase fl x = 1 := by
  rw [idx_gt_phase]
  split_ifs with h
  · rcases h.2 with h1 | h1 <;> rw [h1] <;> norm_num
  · exact Or.inl rfl


theorem process_sample_step (fl : Flags) (st : AggState) (x : Sample) :
    ∃ d1 d2 w1 w2 : ℕ,
      (process_sample fl st x).ac_het_phase =
        (st.ac_het_phase.1 + d1, st.ac_het_phase.2 + d2) ∧
      (process_sample fl st x).baf_writes.1.length = st.baf_writes.1.length + w1 ∧
      (process_sample fl st x).baf_writes.2.length = st.baf_writes.2.length + w2 ∧
      w1 ≤ d1 ∧ w2 ≤ d2 ∧
      ((x.gt0 ≠ bcf_int16_missing →
          ¬(x.gt0 = x.gt1 ∨ (x.gt0 ≠ 0 ∧ x.gt1 ≠ 0)) →
          0 ≤ idx_gt_phase fl x →
          (curr_baf fl x).isSome = true) → (w1 = d1 ∧ w2 = d2)) := by
  rw [process_sample]
  by_cases hmiss : x.gt0 = bcf_int16_missing ∨ x.gt0 = bcf_int16_missing
  · rw [if_pos hmiss]
    exact ⟨0, 0, 0, 0, by simp, by simp, by simp, le_refl _, le_refl _, fun _ => ⟨rfl, rfl⟩⟩
  · rw [if_neg hmiss]
    by_cases hhet : x.gt0 = x.gt1 ∨ (x.gt0 ≠ 0 ∧ x.gt1 ≠ 0)
    · rw [if_pos hhet]
      have e1 := agg_fmt_bal_pw fl x st
      have e2 := agg_sex_pw fl x (agg_fmt_bal fl x st)
      refine ⟨0, 0, 0, 0, ?_, ?_, ?_, le_refl _, le_refl _, fun _ => ⟨rfl, rfl⟩⟩
      · rw [e2.1, e1.1]
        simp
      · rw [e2.2, e1.2]
        simp
      · rw [e2.2, e1.2]
        simp
    · rw [if_neg hhet]
      have e1 := agg_fmt_bal_pw fl x st
      have e2 := agg_sex_pw fl x (agg_fmt_bal fl x st)
      set b := { agg_sex fl x (agg_fmt_bal fl x st) with
          ac_het := (agg_sex fl x (agg_fmt_bal fl x st)).ac_het + 1 } with hb
      have hbp : b.ac_het_phase = st.ac_het_phase := by
        rw [hb]
        show (agg_sex fl x (agg_fmt_bal fl x st)).ac_het_phase = st.ac_het_phase
        rw [e2.1, e1.1]
      have hbw : b.baf_writes = st.baf_writes := by
        rw [hb]
        show (agg_sex fl x (agg_fmt_bal fl x st)).baf_writes = st.baf_writes
        rw [e2.2, e1.2]
      have e3 := agg_het_sex_pw fl x b
      have e4 := agg_het_phase_pw fl x (agg_het_sex fl x b)
      have e5 := agg_fmt_bal_phase_pw fl x (agg_het_phase fl x (agg_het_sex fl x b))
      have e6 := agg_ad_pw fl x
        (agg_fmt_bal_phase fl x (agg_het_phase fl x (agg_het_sex fl x b)))
      have e7 := agg_write_pw fl x
        (agg_ad fl x (agg_fmt_bal_phase fl x (agg_het_phase fl x (agg_het_sex fl x b))))
      have hcounts : (agg_ad fl x (agg_fmt_bal_phase fl x
          (agg_het_phase fl x (agg_het_sex fl x b)))).ac_het_phase =
          (if 0 ≤ idx_gt_phase fl x then bump2 st.ac_het_phase (idx_gt_phase fl x)
           else st.ac_het_phase) := by
        rw [e6.1, e5.1, e4.1, e3.1, hbp]
      have hwb : (agg_ad fl x (agg_fmt_bal_phase fl x
          (agg_het_phase fl x (agg_het_sex fl x b)))).baf_writes = st.baf_writes := by
        rw [e6.2, e5.2, e4.2, e3.2, hbw]
      rcases idx_gt_phase_cases fl x with hi | hi | hi
      · refine ⟨0, 0, 0, 0, ?_, ?_, ?_, le_refl _, le_refl _, fun _ => ⟨rfl, rfl⟩⟩
        · rw [e7.1, hcounts, hi]
          norm_num
        · rw [e7.2.1, hwb, hi]
          norm_num
        · rw [e7.2.2, hwb, hi]
          norm_num
      · refine ⟨1, 0, if (curr_baf fl x).isSome then 1 else 0, 0, ?_, ?_, ?_, ?_,
          le_refl _, ?_⟩
        · rw [e7.1, hcounts, hi]
          simp [bump2]
        · rw [e7.2.1, hwb, hi]
          simp
        · rw [e7.2.2, hwb, hi]
          norm_num
        · split <;> omega
        · intro hs
          have hg : x.gt0 ≠ bcf_int16_missing := fun h => hmiss (Or.inl h)
          rw [if_pos (hs hg hhet (le_of_eq hi.symm))]
          exact ⟨rfl, rfl⟩
      · refine ⟨0, 1, 0, if (curr_baf fl x).isSome then 1 else 0, ?_, ?_, ?_,
          le_refl _, ?_, ?_⟩
        · rw [e7.1, hcounts, hi]
          simp [bump2]
        · rw [e7.2.1, hwb, hi]
          norm_num
        · rw [e7.2.2, hwb, hi]
          simp
        · split <;> omega
        · intro hs
          have hg : x.gt0 ≠ bcf_int16_missing := fun h => hmiss (Or.inl h)
          rw [if_pos (hs hg hhet (by rw [hi]; norm_num))]
          exact ⟨rfl, rfl⟩

theorem curr_baf_isSome (fl : Flags) (x : Sample)
    (h : (fl.baf = true ∧ x.baf.isSome = true) ∨ (fl.baf = false ∧ fl.ad = true)) :
    (curr_baf fl x).isSome = true := by
  rw [curr_baf]
  rcases h with ⟨hb, hs⟩ | ⟨hb, ha⟩
  · rw [if_pos hb]
    exact hs
  · rw [if_neg (by simp [hb]), if_pos ha]
    rfl

theorem fold_baf_writes (fl : Flags) (l : List Sample) : ∀ st : AggState,
    (st.baf_writes.1.length ≤ st.ac_het_phase.1 →
     st.baf_writes.2.length ≤ st.ac_het_phase.2 →
      (l.foldl (process_sample fl) st).baf_writes.1.length ≤
        (l.foldl (process_sample fl) st).ac_het_phase.1 ∧
      (l.foldl (process_sample fl) st).baf_writes.2.length ≤
        (l.foldl (process_sample fl) st).ac_het_phase.2) ∧
    ((∀ s ∈ l, s.gt0 ≠ bcf_int16_missing →
        ¬(s.gt0 = s.gt1 ∨ (s.gt0 ≠ 0 ∧ s.gt1 ≠ 0)) →
        0 ≤ idx_gt_phase fl s →
        (curr_baf fl s).isSome = true) →
     st.baf_writes.1.length = st.ac_het_phase.1 →
     st.baf_writes.2.length = st.ac_het_phase.2 →
      (l.foldl (process_sample fl) st).baf_writes.1.length =
        (l.foldl (process_sample fl) st).ac_het_phase.1 ∧
      (l.foldl (process_sample fl) st).baf_writes.2.length =
        (l.foldl (process_sample fl) st).ac_het_phase.2) := by
  induction l with
  | nil => exact fun st => ⟨fun h1 h2 => ⟨h1, h2⟩, fun _ h1 h2 => ⟨h1, h2⟩⟩
  | cons x xs ih =>
    intro st
    obtain ⟨d1, d2, w1, w2, hc, hw1, hw2, hle1, hle2, heq⟩ := process_sample_step fl st x
    have hc1 : (process_sample fl st x).ac_het_phase.1 = st.ac_het_phase.1 + d1 := by
      rw [hc]
    have hc2 : (process_sample fl st x).ac_het_phase.2 = st.ac_het_phase.2 + d2 := by
      rw [hc]
    constructor
    · intro h1 h2
      rw [List.foldl_cons]
      exact (ih (process_sample fl st x)).1 (by omega) (by omega)
    · intro hsome h1 h2
      rw [List.foldl_cons]
      have hx := heq (hsome x (List.mem_cons_self x xs))
      exact (ih (process_sample fl st x)).2
        (fun s hs => hsome s (List.mem_cons_of_mem x hs)) (by omega) (by omega)

/-- C1, counterexample: a record with one phased heterozygous sample
(`GT = 0|1`) and neither AD nor BAF formats present: `ac_het_phase[0]`
ends at 1, but `curr_baf` stays NaN so no value is placed into
`baf_arr[0]` — the number of placed values is 0 ≠ 1. -/
theorem baf_writes_counterexample :
    (process_record ⟨true, false, false, false, false⟩
      [⟨0, 1, 1, 0, 0, 0, none, 0⟩]).ac_het_phase.1 = 1 ∧
    (process_record ⟨true, false, false, false, false⟩
      [⟨0, 1, 1, 0, 0, 0, none, 0⟩]).baf_writes.1.length = 0 ∧
    (1 : ℕ) ≠ 0 := by
  refine ⟨rfl, rfl, by norm_num⟩

/-- C1 (amended): for every processed record and each phase bucket `k`,
the number of BAF values placed into `baf_arr[k]` is at most the final
`ac_het_phase[k]`, with equality whenever no phased heterozygous sample
(non-missing GT, heterozygous, `idx_gt_phase ≥ 0`) carries a NaN
`curr_baf`.  A phased heterozygous sample whose `curr_baf` is NaN is
counted in `ac_het_phase[k]` but placed nowhere, leaving a stale slot. -/
theorem baf_writes_count (fl : Flags) (samples : List Sample) :
    ((process_record fl samples).baf_writes.1.length ≤
      (process_record fl samples).ac_het_phase.1 ∧
     (process_record fl samples).baf_writes.2.length ≤
      (process_record fl samples).ac_het_phase.2) ∧
    ((∀ s ∈ samples, s.gt0 ≠ bcf_int16_missing →
        ¬(s.gt0 = s.gt1 ∨ (s.gt0 ≠ 0 ∧ s.gt1 ≠ 0)) →
        0 ≤ idx_gt_phase fl s →
        (curr_baf fl s).isSome = true) →
     ((process_record fl samples).baf_writes.1.length =
        (process_record fl samples).ac_het_phase.1 ∧
      (process_record fl samples).baf_writes.2.length =
        (process_record fl samples).ac_het_phase.2)) := by
  constructor
  · exact (fold_baf_writes fl samples initAgg).1 (by simp [initAgg]) (by simp [initAgg])
  · intro h
    exact (fold_baf_writes fl samples initAgg).2 h (by simp [initAgg]) (by simp [initAgg])

/-- C1 witness: two phased heterozygous samples with BAF present
(`0|1` with BAF 2/5, `1|0` with BAF 3/5): no phased-het sample carries a
NaN `curr_baf`, and each bucket holds exactly one placed value, matching
`ac_het_phase = [1, 1]`. -/
theorem baf_writes_count_witness :
    (∀ s ∈ [(⟨0, 1, 1, 0, 0, 0, some (2/5), 0⟩ : Sample), ⟨0, 1, -1, 0, 0, 0, some (3/5), 0⟩],
        s.gt0 ≠ bcf_int16_missing →
        ¬(s.gt0 = s.gt1 ∨ (s.gt0 ≠ 0 ∧ s.gt1 ≠ 0)) →
        0 ≤ idx_gt_phase ⟨true, false, false, false, true⟩ s →
        (curr_baf ⟨true, false, false, false, true⟩ s).isSome = true) ∧
    ((process_record ⟨true, false, false, false, true⟩
        [⟨0, 1, 1, 0, 0, 0, some (2/5), 0⟩, ⟨0, 1, -1, 0, 0, 0, some (3/5), 0⟩]).baf_writes.1.length =
      (process_record ⟨true, false, false, false, true⟩
        [⟨0, 1, 1, 0, 0, 0, some (2/5), 0⟩, ⟨0, 1, -1, 0, 0, 0, some (3/5), 0⟩]).ac_het_phase.1 ∧
     (process_record ⟨true, false, false, false, true⟩
        [⟨0, 1, 1, 0, 0, 0, some (2/5), 0⟩, ⟨0, 1, -1, 0, 0, 0, some (3/5), 0⟩]).baf_writes.2.length =
      (process_record ⟨true, false, false, false, true⟩
        [⟨0, 1, 1, 0, 0, 0, some (2/5), 0⟩, ⟨0, 1, -1, 0, 0, 0, some (3/5), 0⟩]).ac_het_phase.2) := by
  have hall : ∀ s ∈ [(⟨0, 1, 1, 0, 0, 0, some (2/5), 0⟩ : Sample),
      ⟨0, 1, -1, 0, 0, 0, some (3/5), 0⟩],
      s.gt0 ≠ bcf_int16_missing →
      ¬(s.gt0 = s.gt1 ∨ (s.gt0 ≠ 0 ∧ s.gt1 ≠ 0)) →
      0 ≤ idx_gt_phase ⟨true, false, false, false, true⟩ s →
      (curr_baf ⟨true, false, false, false, true⟩ s).isSome = true := by
    intro s hs
    simp only [List.mem_cons, List.mem_singleton, List.not_mem_nil, or_false] at hs
    rcases hs with rfl | rfl <;> intro _ _ _ <;> rfl
  exact ⟨hall, (baf_writes_count ⟨true, false, false, false, true⟩
    [⟨0, 1, 1, 0, 0, 0, some (2/5), 0⟩, ⟨0, 1, -1, 0, 0, 0, some (3/5), 0⟩]).2 hall⟩

def count_val (v : ℚ) (l : List ℚ) : ℕ := l.countP (fun x => decide (x = v))

/-- C4's claim-side quantity, following the claim's words: the sum of
`t^3 - t` over each tie group of the pooled data (each maximal set of
equal values), `t = c_a + c_b`. -/
def pooledTies (a b : List ℚ) : ℚ :=
  ∑ v ∈ (a ++ b).toFinset,
    (((count_val v a + count_val v b : ℕ) : ℚ) ^ 3 -
      ((count_val v a + count_val v b : ℕ) : ℚ))

/-- What the code accumulates: only tie groups in which both samples are
represented (`if (ca && cb)`). -/
def sharedTies (a b : List ℚ) : ℚ :=
  ∑ v ∈ (a ++ b).toFinset,
    if 0 < count_val v a ∧ 0 < count_val v b then
      (((count_val v a + count_val v b : ℕ) : ℚ) ^ 3 -
        ((count_val v a + count_val v b : ℕ) : ℚ))
    else 0

theorem mem_iff_count_pos (v : ℚ) (l : List ℚ) : v ∈ l ↔ 0 < count_val v l := by
  rw [count_val, List.countP_pos_iff]
  constructor
  · intro h
    exact ⟨v, h, by simp⟩
  · rintro ⟨x, hx, hp⟩
    simp only [decide_eq_true_eq] at hp
    subst hp
    exact hx

theorem takeWhile_count (c : ℚ) : ∀ l : List ℚ, l.Sorted (· ≤ ·) → (∀ x ∈ l, c ≤ x) →
    (l.takeWhile (fun x => decide (x = c))).length = count_val c l := by
  intro l
  induction l with
  | nil => intro _ _; simp [count_val]
  | cons h t ih =>
    intro hs hle
    rw [List.sorted_cons] at hs
    by_cases hhc : h = c
    · subst hhc
      have ihh := ih hs.2 (fun x hx => hs.1 x hx)
      rw [count_val] at ihh
      rw [List.takeWhile_cons, count_val, List.countP_cons]
      simp only [decide_True, if_true, List.length_cons]
      omega
    · have hch : c < h := lt_of_le_of_ne (hle h (List.mem_cons_self h t)) (fun e => hhc e.symm)
      have hnot : ∀ x ∈ h :: t, ¬ x = c := by
        intro x hx
        rcases List.mem_cons.mp hx with rfl | hxt
        · exact hhc
        · intro hc2
          subst hc2
          exact absurd (hs.1 x hxt) (not_le.mpr hch)
      have hd : decide (h = c) = false := by
        simp [hhc]
      rw [List.takeWhile_cons, hd]
      rw [count_val, List.countP_eq_zero.mpr (by intro x hx; simp [hnot x hx])]
      rfl

theorem drop_takeWhile_length (p : ℚ → Bool) : ∀ l : List ℚ,
    l.drop ((l.takeWhile p).length) = l.dropWhile p := by
  intro l
  induction l with
  | nil => rfl
  | cons h t ih =>
    rw [List.takeWhile_cons, List.dropWhile_cons]
    by_cases hp : p h = true
    · simp only [hp, if_true, List.length_cons, List.drop_succ_cons]
      exact ih
    · simp only [hp]
      simp

theorem count_dropWhile_self (c : ℚ) : ∀ l : List ℚ, l.Sorted (· ≤ ·) →
    (∀ x ∈ l, c ≤ x) →
    count_val c (l.dropWhile (fun x => decide (x = c))) = 0 := by
  intro l
  induction l with
  | nil => intro _ _; simp [count_val]
  | cons h t ih =>
    intro hs hle
    rw [List.sorted_cons] at hs
    by_cases hhc : h = c
    · subst hhc
      rw [List.dropWhile_cons]
      simp only [decide_True, if_true]
      exact ih hs.2 (fun x hx => hs.1 x hx)
    · have hch : c < h := lt_of_le_of_ne (hle h (List.mem_cons_self h t)) (fun e => hhc e.symm)
      have hd : decide (h = c) = false := by simp [hhc]
      rw [List.dropWhile_cons, hd]
      simp only [Bool.false_eq_true, if_false]
      rw [count_val]
      apply List.countP_eq_zero.mpr
      intro x hx
      rcases List.mem_cons.mp hx with rfl | hxt
      · simp [hhc]
      · have hcx : c < x := lt_of_lt_of_le hch (hs.1 x hxt)
        simp only [decide_eq_true_eq]
        intro e
        exact absurd hcx (by rw [e]; exact lt_irrefl c)

theorem count_dropWhile_ne (c v : ℚ) (hvc : v ≠ c) (l : List ℚ) :
    count_val v (l.dropWhile (fun x => decide (x = c))) = count_val v l := by
  conv_rhs => rw [show l = l.takeWhile (fun x => decide (x = c)) ++
    l.dropWhile (fun x => decide (x = c)) from
    (List.takeWhile_append_dropWhile (fun x => decide (x = c)) l).symm]
  rw [count_val, count_val, List.countP_append]
  have hz : (l.takeWhile (fun x => decide (x = c))).countP (fun x => decide (x = v)) = 0 := by
    apply List.countP_eq_zero.mpr
    intro x hx
    have hxc := List.mem_takeWhile_imp (p := fun x => decide (x = c)) hx
    simp only [decide_eq_true_eq] at hxc
    subst hxc
    simp only [decide_eq_true_eq]
    exact fun e => hvc e.symm
  omega

theorem currOf_le (a b : List ℚ) (ha : a.Sorted (· ≤ ·)) (hb : b.Sorted (· ≤ ·)) :
    (∀ x ∈ a, currOf a b ≤ x) ∧ (∀ x ∈ b, currOf a b ≤ x) := by
  match a, b with
  | [], [] => simp
  | x :: t, [] =>
    rw [List.sorted_cons] at ha
    refine ⟨?_, by simp⟩
    intro z hz
    rcases List.mem_cons.mp hz with rfl | hzt
    · exact le_refl _
    · exact ha.1 z hzt
  | [], y :: u =>
    rw [List.sorted_cons] at hb
    refine ⟨by simp, ?_⟩
    intro z hz
    rcases List.mem_cons.mp hz with rfl | hzu
    · exact le_refl _
    · exact hb.1 z hzu
  | x :: t, y :: u =>
    rw [List.sorted_cons] at ha hb
    have hcx : currOf (x :: t) (y :: u) ≤ x := by
      rw [currOf]
      split <;> [exact le_refl x; exact le_of_not_lt (by assumption)]
    have hcy : currOf (x :: t) (y :: u) ≤ y := by
      rw [currOf]
      split <;> [exact le_of_lt (by assumption); exact le_refl y]
    constructor
    · intro z hz
      rcases List.mem_cons.mp hz with rfl | hzt
      · exact hcx
      · exact le_trans hcx (ha.1 z hzt)
    · intro z hz
      rcases List.mem_cons.mp hz with rfl | hzu
      · exact hcy
      · exact le_trans hcy (hb.1 z hzu)

theorem mwuWalk_snd (a b : List ℚ) (j : ℕ) (h : ¬(a = [] ∧ b = [])) :
    (mwuWalk a b j).2 =
      (mwuWalk (a.drop (a.takeWhile (fun x => decide (x = currOf a b))).length)
               (b.drop (b.takeWhile (fun x => decide (x = currOf a b))).length)
               (j + (b.takeWhile (fun x => decide (x = currOf a b))).length)).2 +
      (if (a.takeWhile (fun x => decide (x = currOf a b))).length ≠ 0 ∧
          (b.takeWhile (fun x => decide (x = currOf a b))).length ≠ 0 then
        ((((a.takeWhile (fun x => decide (x = currOf a b))).length : ℚ) +
          ((b.takeWhile (fun x => decide (x = currOf a b))).length : ℚ)) ^ 2 - 1) *
        (((a.takeWhile (fun x => decide (x = currOf a b))).length : ℚ) +
         ((b.takeWhile (fun x => decide (x = currOf a b))).length : ℚ))
       else 0) := by
  rw [mwuWalk, if_neg h]

theorem sharedTies_step (a b : List ℚ) (c : ℚ) (hmem : c ∈ a ∨ c ∈ b)
    (a' b' : List ℚ)
    (hca' : count_val c a' = 0) (hcb' : count_val c b' = 0)
    (hva : ∀ v, v ≠ c → count_val v a' = count_val v a)
    (hvb : ∀ v, v ≠ c → count_val v b' = count_val v b) :
    sharedTies a b =
      (if 0 < count_val c a ∧ 0 < count_val c b then
        (((count_val c a + count_val c b : ℕ) : ℚ) ^ 3 -
          ((count_val c a + count_val c b : ℕ) : ℚ)) else 0) +
      sharedTies a' b' := by
  have hS : (a ++ b).toFinset = insert c ((a' ++ b').toFinset) := by
    ext v
    simp only [List.mem_toFinset, List.mem_append, Finset.mem_insert, List.mem_toFinset]
    by_cases hv : v = c
    · subst hv
      simp [hmem]
    · rw [mem_iff_count_pos, mem_iff_count_pos, mem_iff_count_pos, mem_iff_count_pos,
        hva v hv, hvb v hv]
      simp [hv]
  have hno : c ∉ (a' ++ b').toFinset := by
    simp only [List.mem_toFinset, List.mem_append]
    rw [mem_iff_count_pos, mem_iff_count_pos, hca', hcb']
    simp
  rw [sharedTies, hS, Finset.sum_insert hno, sharedTies]
  congr 1
  apply Finset.sum_congr rfl
  intro v hv
  have hvc : v ≠ c := fun e => hno (e ▸ hv)
  rw [hva v hvc, hvb v hvc]

theorem mwuWalk_ties_sorted : ∀ (n : ℕ) (a b : List ℚ), a.length + b.length ≤ n →
    a.Sorted (· ≤ ·) → b.Sorted (· ≤ ·) → ∀ j, (mwuWalk a b j).2 = sharedTies a b := by
  intro n
  induction n with
  | zero =>
    intro a b hlen ha hb j
    have ha0 : a = [] := List.length_eq_zero.mp (by omega)
    have hb0 : b = [] := List.length_eq_zero.mp (by omega)
    subst ha0
    subst hb0
    rw [mwuWalk, if_pos ⟨rfl, rfl⟩]
    simp [sharedTies]
  | succ n ih =>
    intro a b hlen ha hb j
    by_cases hemp : a = [] ∧ b = []
    · obtain ⟨rfl, rfl⟩ := hemp
      rw [mwuWalk, if_pos ⟨rfl, rfl⟩]
      simp [sharedTies]
    · have hle := currOf_le a b ha hb
      have hTWa := takeWhile_count (currOf a b) a ha hle.1
      have hTWb := takeWhile_count (currOf a b) b hb hle.2
      have hda := drop_takeWhile_length (fun x => decide (x = currOf a b)) a
      have hdb := drop_takeWhile_length (fun x => decide (x = currOf a b)) b
      have hpos : 0 < (a.takeWhile (fun x => decide (x = currOf a b))).length +
          (b.takeWhile (fun x => decide (x = currOf a b))).length := by
        rcases currOf_head a b hemp with ⟨t, ht⟩ | ⟨u, hu⟩
        · have hp := takeWhile_head_pos (currOf a b) t
          rw [← ht] at hp
          omega
        · have hp := takeWhile_head_pos (currOf a b) u
          rw [← hu] at hp
          omega
      have hlta : (a.takeWhile (fun x => decide (x = currOf a b))).length ≤ a.length :=
        (List.takeWhile_sublist _).length_le
      have hltb : (b.takeWhile (fun x => decide (x = currOf a b))).length ≤ b.length :=
        (List.takeWhile_sublist _).length_le
      have hsa' : (a.dropWhile (fun x => decide (x = currOf a b))).Sorted (· ≤ ·) :=
        ha.sublist (List.dropWhile_sublist _)
      have hsb' : (b.dropWhile (fun x => decide (x = currOf a b))).Sorted (· ≤ ·) :=
        hb.sublist (List.dropWhile_sublist _)
      have hlen' : (a.dropWhile (fun x => decide (x = currOf a b))).length +
          (b.dropWhile (fun x => decide (x = currOf a b))).length ≤ n := by
        rw [← hda, ← hdb, List.length_drop, List.length_drop]
        omega
      have hrec := ih _ _ hlen' hsa' hsb'
        (j + (b.takeWhile (fun x => decide (x = currOf a b))).length)
      have hcmem : currOf a b ∈ a ∨ currOf a b ∈ b := by
        rcases currOf_head a b hemp with ⟨t, ht⟩ | ⟨u, hu⟩
        · exact Or.inl ((congrArg (fun l => currOf a b ∈ l) ht).mpr
            (List.mem_cons_self _ _))
        · exact Or.inr ((congrArg (fun l => currOf a b ∈ l) hu).mpr
            (List.mem_cons_self _ _))
      have hstep := sharedTies_step a b (currOf a b) hcmem
        (a.dropWhile (fun x => decide (x = currOf a b)))
        (b.dropWhile (fun x => decide (x = currOf a b)))
        (count_dropWhile_self (currOf a b) a ha hle.1)
        (count_dropWhile_self (currOf a b) b hb hle.2)
        (fun v hv => count_dropWhile_ne (currOf a b) v hv a)
        (fun v hv => count_dropWhile_ne (currOf a b) v hv b)
      rw [mwuWalk_snd a b j hemp, hda, hdb, hrec, hstep, hTWa, hTWb]
      by_cases h0 : 0 < count_val (currOf a b) a ∧ 0 < count_val (currOf a b) b
      · rw [if_pos h0, if_pos (by omega : count_val (currOf a b) a ≠ 0 ∧
          count_val (currOf a b) b ≠ 0)]
        push_cast
        ring
      · rw [if_neg h0, if_neg (by omega : ¬(count_val (currOf a b) a ≠ 0 ∧
          count_val (currOf a b) b ≠ 0))]
        ring

theorem mwuSorted_sorted (l : List ℚ) : (mwuSorted l).Sorted (· ≤ ·) := by
  have h := @List.sorted_mergeSort ℚ (fun x y : ℚ => decide (x ≤ y))
    (by intro a b c hab hbc; simp only [decide_eq_true_eq] at hab hbc ⊢; exact le_trans hab hbc)
    (by intro a b; simpa using le_total a b) l
  rw [mwuSorted]
  exact h.imp (by intro a b hab; simpa using hab)

theorem mwuSorted_perm (l : List ℚ) : List.Perm (mwuSorted l) l := List.mergeSort_perm l _

theorem count_val_perm (v : ℚ) {l1 l2 : List ℚ} (h : List.Perm l1 l2) :
    count_val v l1 = count_val v l2 := h.countP_eq _

theorem sharedTies_perm (a a' b b' : List ℚ) (hpa : List.Perm a a') (hpb : List.Perm b b') :
    sharedTies a b = sharedTies a' b' := by
  rw [sharedTies, sharedTies]
  have htf : (a ++ b).toFinset = (a' ++ b').toFinset := by
    ext v
    simp [List.mem_toFinset, List.mem_append, hpa.mem_iff, hpb.mem_iff]
  rw [htf]
  apply Finset.sum_congr rfl
  intro v _
  rw [count_val_perm v hpa, count_val_perm v hpb]

/-- The `ties` accumulator of `mann_whitney_u` equals the sum of
`t^3 - t` over exactly those pooled tie groups in which both samples are
represented. -/
theorem mwuTies_eq (a b : List ℚ) : mwuTies a b = sharedTies a b := by
  rw [mwuTies,
    mwuWalk_ties_sorted ((mwuSorted a).length + (mwuSorted b).length)
      (mwuSorted a) (mwuSorted b) (le_refl _) (mwuSorted_sorted a) (mwuSorted_sorted b) 0]
  exact sharedTies_perm _ _ _ _ (mwuSorted_perm a) (mwuSorted_perm b)

theorem shared_eval : sharedTies [(1:ℚ), 1] [2] = 0 := by
  rw [sharedTies]
  have htf : ([(1:ℚ), 1] ++ [2]).toFinset = {1, 2} := by
    simp
  rw [htf]
  rw [show ({1, 2} : Finset ℚ) = insert 1 {2} from rfl,
    Finset.sum_insert (by norm_num), Finset.sum_singleton]
  norm_num [count_val, List.countP_cons, List.countP_nil]

theorem pooled_eval : pooledTies [(1:ℚ), 1] [2] = 6 := by
  rw [pooledTies]
  have htf : ([(1:ℚ), 1] ++ [2]).toFinset = {1, 2} := by
    simp
  rw [htf]
  rw [show ({1, 2} : Finset ℚ) = insert 1 {2} from rfl,
    Finset.sum_insert (by norm_num), Finset.sum_singleton]
  norm_num [count_val, List.countP_cons, List.countP_nil]

/-- C4, counterexample: with samples `a = [1, 1]`, `b = [2]` the pooled
data has the tie group `{1, 1}` (`t = c_a + c_b = 2 + 0`), so the claimed
sum over each maximal set of equal values is `t^3 - t = 6`; but the code
adds to `ties` only when `ca && cb`, so the accumulator stays 0. -/
theorem mwu_ties_counterexample :
    mwuTies [(1:ℚ), 1] [2] = 0 ∧ pooledTies [(1:ℚ), 1] [2] = 6 ∧ (0:ℚ) ≠ 6 := by
  refine ⟨?_, pooled_eval, by norm_num⟩
  rw [mwuTies_eq, shared_eval]

/-- C4 (amended): for every pair of input samples, the `ties` accumulator
used in the normal-approximation variance equals the sum of `t^3 - t`
over exactly those tie groups of the pooled data in which both samples
are represented (`c_a ≥ 1` and `c_b ≥ 1`), with `t = c_a + c_b`; groups
confined to a single sample are not accumulated. -/
theorem mwu_ties_shared (a b : List ℚ) : mwuTies a b = sharedTies a b :=
  mwuTies_eq a b
